import Mathlib

set_option linter.unusedVariables false

/-!
Verification development for the cross-file Go obfuscator.

Bytes of a binary are modelled as `List Nat` (each entry the value of one
byte, `< 256` where it matters); identifier names are modelled as
`List Char`.  Randomness drawn from `crypto/rand` is modelled by an oracle
`g : Nat -> Nat` giving the stream of raw draws; each primitive consumes
the head draw `g 0` and passes the shifted oracle on.  Go maps that are
iterated are modelled as association lists (the quantification over the
list models the unspecified iteration order).
-/

namespace Obf

/-- Shift the random oracle past one consumed draw. -/
def onext (g : Nat → Nat) : Nat → Nat := fun n => g (n + 1)

/-- Model of `secureRandInt` (name_generator.go): a uniform draw in
`[0, max)`; `0` when `max <= 0`. -/
def secureRandInt (g : Nat → Nat) (max : Nat) : Nat :=
  if max = 0 then 0 else g 0 % max

theorem secureRandInt_lt (g : Nat → Nat) (max : Nat) (h : 0 < max) :
    secureRandInt g max < max := by
  unfold secureRandInt
  rw [if_neg (Nat.pos_iff_ne_zero.mp h)]
  exact Nat.mod_lt _ h

/-! ## Byte-buffer primitives -/

/-- `data[j : j+n]` of a Go byte slice. -/
def byteSlice (d : List Nat) (j n : Nat) : List Nat := (d.drop j).take n

/-- Go `copy(data[j:], r)`: overwrite in place starting at `j`, clipped to
the end of the buffer, never changing the buffer's length. -/
def writeBytes (d : List Nat) (j : Nat) (r : List Nat) : List Nat :=
  d.take j ++ r.take (d.length - j) ++ d.drop (j + r.length)

theorem writeBytes_length (d : List Nat) (j : Nat) (r : List Nat) :
    (writeBytes d j r).length = d.length := by
  unfold writeBytes
  simp [List.length_append, List.length_take, List.length_drop]
  omega

/-! ## Character classes used by the binary patcher (bytes as `Nat`) -/

def isByteLower (b : Nat) : Bool := 97 ≤ b ∧ b ≤ 122

def isByteUpper (b : Nat) : Bool := 65 ≤ b ∧ b ≤ 90

def isByteLetter (b : Nat) : Bool := isByteLower b || isByteUpper b

def isByteDigit (b : Nat) : Bool := 48 ≤ b ∧ b ≤ 57

/-! ## The protected-name classifier (`shouldProtect`, with `isExported`) -/

/-- Model of `isExported`: the first byte of the name is an ASCII capital. -/
def isExported (name : List Char) : Bool :=
  match name with
  | [] => false
  | c :: _ => if 'A' ≤ c ∧ c ≤ 'Z' then true else false

/-- The source-rewriter configuration (`Config`), with the fields the
classifier consults. -/
structure Config where
  ObfuscateExported : Bool
  ObfuscateFileNames : Bool
  EncryptStrings : Bool
  InjectJunkCode : Bool
  RemoveComments : Bool
  PreserveReflection : Bool
  SkipGeneratedCode : Bool

/-- The slice of the `Obfuscator` state that `shouldProtect` reads:
the protected-name set, the imported-package-name set and the config. -/
structure ProtectCtx where
  protectedNames : List (List Char)
  packageNames : List (List Char)
  Config : Config

/-- The closed, enumerated list of builtin types/functions/constants that
`shouldProtect` always protects (`protectedIdentifiers` in the source). -/
def protectedIdentifiers : List (List Char) :=
  [ "error".toList, "string".toList, "int".toList, "bool".toList,
    "byte".toList, "rune".toList, "float32".toList, "float64".toList,
    "complex64".toList, "complex128".toList, "uint".toList,
    "int8".toList, "int16".toList, "int32".toList, "int64".toList,
    "uint8".toList, "uint16".toList, "uint32".toList, "uint64".toList,
    "uintptr".toList, "len".toList, "cap".toList, "make".toList,
    "new".toList, "append".toList, "copy".toList, "delete".toList,
    "panic".toList, "recover".toList, "print".toList, "println".toList,
    "close".toList, "min".toList, "max".toList, "clear".toList,
    "nil".toList, "true".toList, "false".toList, "iota".toList ]

/-- Model of `shouldProtect`: the priority-ordered protection decision. -/
def shouldProtect (o : ProtectCtx) (name : List Char) : Bool :=
  if name = "_".toList ∨ name = "main".toList ∨ name = "init".toList then
    true
  else if o.Config.ObfuscateExported = false ∧ isExported name = true then
    true
  else if name ∈ o.protectedNames then true
  else if name ∈ o.packageNames then true
  else if name ∈ protectedIdentifiers then true
  else false

/-! ## `findPclntabMagic` -/

def go12magic : Nat := 0xfffffffb
def go116magic : Nat := 0xfffffffa
def go118magic : Nat := 0xfffffff0
def go120magic : Nat := 0xfffffff1

/-- The four supported pclntab magic constants, in source order. -/
def pclntabMagics : List Nat := [go12magic, go116magic, go118magic, go120magic]

/-- The four bytes at offset `i`, read as a 32-bit little-endian integer
(`binary.LittleEndian.Uint32(data[i:i+4])`). -/
def readLE32 (data : List Nat) (i : Nat) : Nat :=
  data.getD i 0 + data.getD (i + 1) 0 * 256 + data.getD (i + 2) 0 * 65536 +
    data.getD (i + 3) 0 * 16777216

/-- The scan loop of `findPclntabMagic`, from position `i` (`fuel` bounds
the remaining iterations; the wrapper passes enough for the whole scan). -/
def findPclntabFrom (data : List Nat) : Nat → Nat → Int
  | 0, _ => -1
  | fuel + 1, i =>
      if i + 4 ≤ data.length then
        if readLE32 data i ∈ pclntabMagics then (i : Int)
        else findPclntabFrom data fuel (i + 1)
      else -1

/-- Model of `findPclntabMagic`: first offset whose 32-bit LE read is one
of the four magic values, `-1` if none. -/
def findPclntabMagic (data : List Nat) : Int :=
  findPclntabFrom data (data.length + 1) 0

theorem findPclntabFrom_spec (data : List Nat) :
    ∀ (fuel i : Nat), data.length - i ≤ fuel + 3 →
    (findPclntabFrom data fuel i = -1 ∧
      ∀ j, i ≤ j → j + 4 ≤ data.length → readLE32 data j ∉ pclntabMagics) ∨
    (∃ k : Nat, findPclntabFrom data fuel i = (k : Int) ∧ i ≤ k ∧
      k + 4 ≤ data.length ∧ readLE32 data k ∈ pclntabMagics ∧
      ∀ j, i ≤ j → j < k → readLE32 data j ∉ pclntabMagics) := by
    intro n
    induction n with
    | zero =>
        intro i h
        left
        constructor
        · rfl
        · intro j hij hj
          omega
    | succ n ih =>
        intro i h
        by_cases h4 : i + 4 ≤ data.length
        · by_cases hm : readLE32 data i ∈ pclntabMagics
          · right
            refine ⟨i, ?_, le_refl i, h4, hm, ?_⟩
            · rw [findPclntabFrom, if_pos h4, if_pos hm]
            · intro j hij hji
              omega
          · have heq : findPclntabFrom data (n + 1) i =
                findPclntabFrom data n (i + 1) := by
              rw [findPclntabFrom, if_pos h4, if_neg hm]
            rcases ih (i + 1) (by omega) with ⟨h1, h2⟩ | ⟨k, h1, h2, h3, h4', h5⟩
            · left
              refine ⟨heq.trans h1, ?_⟩
              intro j hij hj
              rcases Nat.eq_or_lt_of_le hij with rfl | hlt
              · exact hm
              · exact h2 j hlt hj
            · right
              refine ⟨k, heq.trans h1, by omega, h3, h4', ?_⟩
              intro j hij hjk
              rcases Nat.eq_or_lt_of_le hij with rfl | hlt
              · exact hm
              · exact h5 j hlt hjk
        · left
          rw [findPclntabFrom]
          refine ⟨by rw [if_neg h4], ?_⟩
          intro j hij hj
          omega

theorem findPclntabMagic_spec (data : List Nat) :
    (findPclntabMagic data = -1 ∧
      ∀ j, j + 4 ≤ data.length → readLE32 data j ∉ pclntabMagics) ∨
    (∃ k : Nat, findPclntabMagic data = (k : Int) ∧
      k + 4 ≤ data.length ∧ readLE32 data k ∈ pclntabMagics ∧
      ∀ j, j < k → readLE32 data j ∉ pclntabMagics) := by
  rcases findPclntabFrom_spec data (data.length + 1) 0 (by omega) with
    ⟨h1, h2⟩ | ⟨k, h1, _, h3, h4, h5⟩
  · exact Or.inl ⟨h1, fun j hj => h2 j (Nat.zero_le j) hj⟩
  · exact Or.inr ⟨k, h1, h3, h4, fun j hj => h5 j (Nat.zero_le j) hj⟩

theorem findPclntabMagic_neg_one (data : List Nat)
    (h : findPclntabMagic data = -1) :
    ∀ j, j + 4 ≤ data.length → readLE32 data j ∉ pclntabMagics := by
  rcases findPclntabMagic_spec data with ⟨_, h2⟩ | ⟨k, h1, _, _, _⟩
  · exact h2
  · rw [h] at h1
    exact absurd h1 (by simp)

/-- C4: `findPclntabMagic` returns the smallest byte offset `i` such that
the four bytes at `i`, read as a 32-bit little-endian integer, equal one of
the four supported magic constants (0xfffffffb, 0xfffffffa, 0xfffffff0,
0xfffffff1), and returns -1 when no such offset exists. -/
theorem findPclntabMagic_minimal_or_none (data : List Nat) :
    (findPclntabMagic data = -1 ∧
      ∀ j, j + 4 ≤ data.length → readLE32 data j ∉ pclntabMagics) ∨
    (∃ k : Nat, findPclntabMagic data = (k : Int) ∧
      k + 4 ≤ data.length ∧ readLE32 data k ∈ pclntabMagics ∧
      ∀ j, j < k → readLE32 data j ∉ pclntabMagics) :=
  findPclntabMagic_spec data

/-- C9: `shouldProtect` returns `true` for the discard identifier, the
entry point, the init hook, every builtin in the enumerated list, and —
when export renaming is off — every exported name. -/
theorem shouldProtect_special_builtin_exported (o : ProtectCtx) (name : List Char)
    (h : name = "_".toList ∨ name = "main".toList ∨ name = "init".toList ∨
      name ∈ protectedIdentifiers ∨
      (o.Config.ObfuscateExported = false ∧ isExported name = true)) :
    shouldProtect o name = true := by
  unfold shouldProtect
  rcases h with h | h | h | h | h
  · rw [if_pos (Or.inl h)]
  · rw [if_pos (Or.inr (Or.inl h))]
  · rw [if_pos (Or.inr (Or.inr h))]
  · by_cases h1 : name = "_".toList ∨ name = "main".toList ∨ name = "init".toList
    · rw [if_pos h1]
    · rw [if_neg h1]
      by_cases h2 : o.Config.ObfuscateExported = false ∧ isExported name = true
      · rw [if_pos h2]
      · rw [if_neg h2]
        by_cases h3 : name ∈ o.protectedNames
        · rw [if_pos h3]
        · rw [if_neg h3]
          by_cases h4 : name ∈ o.packageNames
          · rw [if_pos h4]
          · rw [if_neg h4, if_pos h]
  · by_cases h1 : name = "_".toList ∨ name = "main".toList ∨ name = "init".toList
    · rw [if_pos h1]
    · rw [if_neg h1, if_pos h]

/-- Witness: `shouldProtect` protects the exported name `Foo` when export
renaming is disabled. -/
theorem shouldProtect_special_builtin_exported_witness :
    shouldProtect
      ⟨[], [],
        ⟨false, false, false, false, true, true, true⟩⟩ "Foo".toList = true :=
  shouldProtect_special_builtin_exported _ _
    (Or.inr (Or.inr (Or.inr (Or.inr (by decide)))))

/-! ## `isSafeFunctionNamePrefix` (pclntab neighbor-byte check) -/

/-- The preceding bytes rejected by `isSafeFunctionNamePrefix`: letters,
digits, `.` (46), `/` (47), `_` (95), `-` (45). -/
def fnpBadPrev (b : Nat) : Bool :=
  isByteLetter b || isByteDigit b || b == 46 || b == 47 || b == 95 || b == 45

/-- The following-byte check shared by both fall-through paths of
`isSafeFunctionNamePrefix`: when the pattern contains a dot and a byte
follows the match, that byte must be a letter or a null terminator. -/
def fnpNextCheck (data : List Nat) (pos : Nat) (pattern : List Nat) : Bool :=
  if 46 ∈ pattern ∧ pos + pattern.length < data.length then
    if data.getD (pos + pattern.length) 0 = 0 then true
    else if isByteLetter (data.getD (pos + pattern.length) 0) then true
    else false
  else true

/-- Model of `isSafeFunctionNamePrefix` (junk_code.go): neighbor-byte
check for a function-name prefix match at `pos` inside the pclntab. -/
def isSafeFunctionNamePrefix (data : List Nat) (pos : Nat) (pattern : List Nat) :
    Bool :=
  if 0 < pos then
    if data.getD (pos - 1) 0 = 0 then true
    else if data.getD (pos - 1) 0 < 32 ∧ data.getD (pos - 1) 0 ≠ 32 then true
    else if fnpBadPrev (data.getD (pos - 1) 0) then false
    else fnpNextCheck data pos pattern
  else fnpNextCheck data pos pattern

theorem fnpNextCheck_eq_true (data : List Nat) (pos : Nat) (pattern : List Nat) :
    fnpNextCheck data pos pattern = true ↔
      ((46 ∈ pattern ∧ pos + pattern.length < data.length) →
        (data.getD (pos + pattern.length) 0 = 0 ∨
          isByteLetter (data.getD (pos + pattern.length) 0) = true)) := by
  unfold fnpNextCheck
  by_cases h : 46 ∈ pattern ∧ pos + pattern.length < data.length
  · rw [if_pos h]
    by_cases h0 : data.getD (pos + pattern.length) 0 = 0
    · rw [if_pos h0]
      constructor
      · intro _ _
        exact Or.inl h0
      · intro _
        rfl
    · rw [if_neg h0]
      by_cases hl : isByteLetter (data.getD (pos + pattern.length) 0) = true
      · rw [if_pos hl]
        constructor
        · intro _ _
          exact Or.inr hl
        · intro _
          rfl
      · rw [if_neg hl]
        constructor
        · intro hfalse
          exact absurd hfalse (by simp)
        · intro hcond
          rcases hcond h with hc | hc
          · exact absurd hc h0
          · exact absurd hc hl
  · rw [if_neg h]
    constructor
    · intro _ hc
      exact absurd hc h
    · intro _
      rfl

/-- C6 counterexample: with buffer `[0x00] ++ "main." ++ "9"`, the match of
`"main."` at offset 1 is accepted (preceding byte is null) even though the
byte following the matched prefix is the digit `'9'` (57), which is neither
a letter nor a null terminator.  So acceptance does not require the
following byte to be a letter or null, contrary to the claim. -/
theorem isSafeFunctionNamePrefix_accepts_digit_follower :
    isSafeFunctionNamePrefix [0, 109, 97, 105, 110, 46, 57] 1
        [109, 97, 105, 110, 46] = true ∧
      [0, 109, 97, 105, 110, 46, 57].getD (1 + 5) 0 = 57 ∧
      isByteLetter 57 = false ∧ (57 : Nat) ≠ 0 := by
  refine ⟨?_, by decide, by decide, by decide⟩
  decide

/-- C6 amended: a candidate match is accepted immediately — without
examining the following byte — when a preceding byte exists and is null or
non-printable (below 0x20); it is rejected when the preceding byte is a
letter, digit, underscore, hyphen, dot, or slash; for any other preceding
byte (or a match at offset 0), it is accepted iff, whenever the pattern
contains a dot and a byte follows the match, that byte is a letter or a
null terminator. -/
theorem isSafeFunctionNamePrefix_characterization (data : List Nat) (pos : Nat)
    (pattern : List Nat) :
    isSafeFunctionNamePrefix data pos pattern = true ↔
      ((0 < pos ∧ data.getD (pos - 1) 0 < 32) ∨
        ((pos = 0 ∨ (32 ≤ data.getD (pos - 1) 0 ∧
            fnpBadPrev (data.getD (pos - 1) 0) = false)) ∧
          ((46 ∈ pattern ∧ pos + pattern.length < data.length) →
            (data.getD (pos + pattern.length) 0 = 0 ∨
              isByteLetter (data.getD (pos + pattern.length) 0) = true)))) := by
  unfold isSafeFunctionNamePrefix
  by_cases hp : 0 < pos
  · rw [if_pos hp]
    by_cases h0 : data.getD (pos - 1) 0 = 0
    · rw [if_pos h0]
      constructor
      · intro _
        exact Or.inl ⟨hp, by omega⟩
      · intro _
        rfl
    · rw [if_neg h0]
      by_cases hlt : data.getD (pos - 1) 0 < 32 ∧ data.getD (pos - 1) 0 ≠ 32
      · rw [if_pos hlt]
        constructor
        · intro _
          exact Or.inl ⟨hp, hlt.1⟩
        · intro _
          rfl
      · rw [if_neg hlt]
        have h32 : 32 ≤ data.getD (pos - 1) 0 := by omega
        by_cases hbad : fnpBadPrev (data.getD (pos - 1) 0) = true
        · rw [if_pos hbad]
          constructor
          · intro hfalse
            exact absurd hfalse (by simp)
          · intro h
            rcases h with ⟨_, h2⟩ | ⟨h1, _⟩
            · omega
            · rcases h1 with h1 | h1
              · omega
              · have h2 := h1.2
                rw [h2] at hbad
                exact absurd hbad (by decide)
        · have hbad' : fnpBadPrev (data.getD (pos - 1) 0) = false :=
            Bool.eq_false_iff.mpr hbad
          rw [if_neg hbad]
          rw [fnpNextCheck_eq_true]
          constructor
          · intro h
            exact Or.inr ⟨Or.inr ⟨h32, hbad'⟩, h⟩
          · intro h
            rcases h with ⟨_, h2⟩ | ⟨_, h2⟩
            · omega
            · exact h2
  · rw [if_neg hp]
    rw [fnpNextCheck_eq_true]
    have hp0 : pos = 0 := by omega
    constructor
    · intro h
      exact Or.inr ⟨Or.inl hp0, h⟩
    · intro h
      rcases h with ⟨h1, _⟩ | ⟨_, h2⟩
      · exact absurd h1 hp
      · exact h2

/-! ## String encryption (`encryptString` / the generated decrypt function)

`encoding/base64.StdEncoding` is the Go standard library (an external
collaborator of this repository); it is modelled here by its standard
algorithm: 3-byte groups to 4 alphabet characters, `=`-padded tails. -/

def b64Alphabet : List Char :=
  "ABCDEFGHIJKLMNOPQRSTUVWXYZabcdefghijklmnopqrstuvwxyz0123456789+/".toList

def b64Char (n : Nat) : Char := b64Alphabet.getD n 'A'

def b64Index (c : Char) : Nat := b64Alphabet.findIdx (fun a => a == c)

theorem b64Index_b64Char (n : Nat) (h : n < 64) : b64Index (b64Char n) = n := by
  revert h
  revert n
  decide

theorem b64Char_ne_pad (n : Nat) : b64Char n ≠ '=' := by
  by_cases h : n < 64
  · revert h
    revert n
    decide
  · unfold b64Char
    rw [List.getD_eq_default]
    · decide
    · have : b64Alphabet.length = 64 := by decide
      omega

/-- Standard base64 encoding of a byte list (pad with `=`). -/
def base64Encode : List Nat → List Char
  | [] => []
  | [a] => [b64Char (a / 4), b64Char (a % 4 * 16), '=', '=']
  | [a, b] =>
      [b64Char (a / 4), b64Char (a % 4 * 16 + b / 16), b64Char (b % 16 * 4), '=']
  | a :: b :: c :: rest =>
      b64Char (a / 4) :: b64Char (a % 4 * 16 + b / 16) ::
        b64Char (b % 16 * 4 + c / 64) :: b64Char (c % 64) :: base64Encode rest

/-- Standard base64 decoding (on well-formed, encoder-produced input). -/
def base64Decode : List Char → List Nat
  | w :: x :: y :: z :: rest =>
      if y = '=' then [b64Index w * 4 + b64Index x / 16]
      else if z = '=' then
        [b64Index w * 4 + b64Index x / 16,
          b64Index x % 16 * 16 + b64Index y / 4]
      else
        (b64Index w * 4 + b64Index x / 16) ::
          (b64Index x % 16 * 16 + b64Index y / 4) ::
          (b64Index y % 4 * 64 + b64Index z) :: base64Decode rest
  | _ => []

theorem base64_roundtrip :
    ∀ l : List Nat, (∀ b ∈ l, b < 256) → base64Decode (base64Encode l) = l
  | [], _ => by simp [base64Encode, base64Decode]
  | [a], h => by
      have ha : a < 256 := h a (by simp)
      have h1 : b64Index (b64Char (a / 4)) = a / 4 := b64Index_b64Char _ (by omega)
      have h2 : b64Index (b64Char (a % 4 * 16)) = a % 4 * 16 :=
        b64Index_b64Char _ (by omega)
      simp only [base64Encode, base64Decode, if_pos rfl, if_true, h1, h2]
      have e1 : a / 4 * 4 + a % 4 * 16 / 16 = a := by omega
      simp [e1]
      omega
  | [a, b], h => by
      have ha : a < 256 := h a (by simp)
      have hb : b < 256 := h b (by simp)
      have h1 : b64Index (b64Char (a / 4)) = a / 4 := b64Index_b64Char _ (by omega)
      have h2 : b64Index (b64Char (a % 4 * 16 + b / 16)) = a % 4 * 16 + b / 16 :=
        b64Index_b64Char _ (by omega)
      have h3 : b64Index (b64Char (b % 16 * 4)) = b % 16 * 4 :=
        b64Index_b64Char _ (by omega)
      simp only [base64Encode, base64Decode, if_neg (b64Char_ne_pad _), if_pos rfl,
        if_true, h1, h2, h3]
      have e1 : a / 4 * 4 + (a % 4 * 16 + b / 16) / 16 = a := by omega
      have e2 : (a % 4 * 16 + b / 16) % 16 * 16 + b % 16 * 4 / 4 = b := by omega
      simp [e1, e2]
      omega
  | a :: b :: c :: rest, h => by
      have ha : a < 256 := h a (by simp)
      have hb : b < 256 := h b (by simp)
      have hc : c < 256 := h c (by simp)
      have ih := base64_roundtrip rest (fun x hx => h x (by simp [hx]))
      have h1 : b64Index (b64Char (a / 4)) = a / 4 := b64Index_b64Char _ (by omega)
      have h2 : b64Index (b64Char (a % 4 * 16 + b / 16)) = a % 4 * 16 + b / 16 :=
        b64Index_b64Char _ (by omega)
      have h3 : b64Index (b64Char (b % 16 * 4 + c / 64)) = b % 16 * 4 + c / 64 :=
        b64Index_b64Char _ (by omega)
      have h4 : b64Index (b64Char (c % 64)) = c % 64 := b64Index_b64Char _ (by omega)
      simp only [base64Encode, base64Decode, if_neg (b64Char_ne_pad _), h1, h2, h3,
        h4, ih]
      have e1 : a / 4 * 4 + (a % 4 * 16 + b / 16) / 16 = a := by omega
      have e2 : (a % 4 * 16 + b / 16) % 16 * 16 + (b % 16 * 4 + c / 64) / 4 = b := by
        omega
      have e3 : (b % 16 * 4 + c / 64) % 4 * 64 + c % 64 = c := by omega
      simp [e1, e2, e3]
  termination_by l => l.length

/-- The indexed XOR loop of `encryptString` / the generated decrypt
function: byte `i` is XORed with `key[i % len(key)]`. -/
def xorFrom (key : List Nat) : Nat → List Nat → List Nat
  | _, [] => []
  | i, b :: rest =>
      (b ^^^ key.getD (i % key.length) 0) :: xorFrom key (i + 1) rest

/-- XOR a byte list with the repeating key, starting at index 0. -/
def xorCipher (key text : List Nat) : List Nat := xorFrom key 0 text

theorem getD_lt_256 :
    ∀ (l : List Nat) (i : Nat), (∀ b ∈ l, b < 256) → l.getD i 0 < 256
  | [], i, _ => by simp [List.getD]
  | x :: xs, 0, h => by simpa using h x (by simp)
  | x :: xs, i + 1, h => by
      simpa using getD_lt_256 xs i (fun b hb => h b (by simp [hb]))

theorem xorFrom_involutive (key : List Nat) :
    ∀ (i : Nat) (text : List Nat), xorFrom key i (xorFrom key i text) = text := by
  intro i text
  induction text generalizing i with
  | nil => rfl
  | cons b rest ih =>
      simp only [xorFrom, ih]
      rw [Nat.xor_assoc, Nat.xor_self, Nat.xor_zero]

theorem xorFrom_lt_256 (key : List Nat) (hk : ∀ b ∈ key, b < 256) :
    ∀ (i : Nat) (text : List Nat), (∀ b ∈ text, b < 256) →
      ∀ b ∈ xorFrom key i text, b < 256 := by
  intro i text
  induction text generalizing i with
  | nil => intro _ b hb; simp [xorFrom] at hb
  | cons t rest ih =>
      intro ht b hb
      simp only [xorFrom, List.mem_cons] at hb
      rcases hb with hb | hb
      · subst hb
        have h1 : t < 2 ^ 8 := ht t (by simp)
        have h2 : key.getD (i % key.length) 0 < 2 ^ 8 :=
          getD_lt_256 key _ hk
        exact Nat.xor_lt_two_pow h1 h2
      · exact ih (i + 1) (fun x hx => ht x (by simp [hx])) b hb

/-- Model of `encryptString` (string_encryption.go): XOR with the
repeating key, then base64-armor. -/
def encryptString (key text : List Nat) : List Char :=
  base64Encode (xorCipher key text)

/-- The algorithm of the generated decrypt function
(`generateDecryptFunction`): base64-decode, then XOR each byte with the
repeating key. -/
def decryptPayload (key : List Nat) (payload : List Char) : List Nat :=
  xorCipher key (base64Decode payload)

/-- C3: string encryption round-trips — for every byte string and the
run's non-empty key, base64-decoding the output of `encryptString` and
XORing each byte with the repeating key yields exactly the original. -/
theorem encryptString_roundtrip (key text : List Nat) (hk : key ≠ [])
    (hkb : ∀ b ∈ key, b < 256) (htb : ∀ b ∈ text, b < 256) :
    decryptPayload key (encryptString key text) = text := by
  unfold decryptPayload encryptString xorCipher
  rw [base64_roundtrip _ (xorFrom_lt_256 key hkb 0 text htb)]
  exact xorFrom_involutive key 0 text

/-- Witness: round-trip of the bytes of `"hi"` under the 1-byte key 107. -/
theorem encryptString_roundtrip_witness :
    ([107] : List Nat) ≠ [] ∧
      decryptPayload [107] (encryptString [107] [104, 105]) = [104, 105] :=
  ⟨by decide,
    encryptString_roundtrip [107] [104, 105] (by decide) (by decide) (by decide)⟩

/-! ## The natural name generator (`name_generator.go`)

Word lists of `NewNaturalNameGenerator`, then the length-driven
generation paths.  Every random primitive takes the oracle `g` and
returns the value together with the advanced oracle. -/

def pkgPrefixes : List (List Char) :=
  ["app", "lib", "pkg", "sys", "web", "api", "net", "db", "svc", "core",
    "util", "data", "log", "auth", "cache"].map String.toList

def pkgSuffixes : List (List Char) :=
  ["core", "util", "base", "main", "impl", "svc", "mgr", "handler",
    "service", "client", "server", "config"].map String.toList

def pkgMiddles : List (List Char) :=
  ["", "http", "grpc", "rest", "rpc", "sql", "store"].map String.toList

def shortNamesList : List (List Char) :=
  ["a", "b", "c", "x", "y", "z", "ab", "io", "os", "db", "fs", "ws",
    "app", "api", "sys", "lib", "net", "log"].map String.toList

def lettersAZ : List Char := "abcdefghijklmnopqrstuvwxyz".toList

def vowelsList : List Char := "aeiou".toList

def consonantsList : List Char := "bcdfghjklmnpqrstvwxyz".toList

/-- Model of `randomLetters`: `length` draws from the lowercase alphabet. -/
def randomLetters (g : Nat → Nat) : Nat → List Char × (Nat → Nat)
  | 0 => ([], g)
  | n + 1 =>
      let c := lettersAZ.getD (secureRandInt g 26) 'a'
      let r := randomLetters (onext g) n
      (c :: r.1, r.2)

/-- Model of `padWithLetters`: append random lowercase letters until the
target length is reached. -/
def padWithLetters (g : Nat → Nat) (base : List Char) (targetLength : Nat) :
    List Char × (Nat → Nat) :=
  if base.length < targetLength then
    padWithLetters (onext g) (base ++ [lettersAZ.getD (secureRandInt g 26) 'a'])
      targetLength
  else (base, g)
termination_by targetLength - base.length
decreasing_by simp [List.length_append]; omega

/-- Model of `generateShortName` (1–3 characters). -/
def generateShortName (g : Nat → Nat) (length : Nat) : List Char × (Nat → Nat) :=
  if 0 < (shortNamesList.filter (fun n => n.length = length)).length then
    ((shortNamesList.filter (fun n => n.length = length)).getD
        (secureRandInt g (shortNamesList.filter (fun n => n.length = length)).length)
        [],
      onext g)
  else randomLetters g length

/-- The `combined := word + suffix` arm of `generateMediumName`. -/
def mediumCombine (g2 : Nat → Nat) (word sfx : List Char) (length : Nat) :
    List Char × (Nat → Nat) :=
  if length ≤ (word ++ sfx).length then ((word ++ sfx).take length, g2)
  else padWithLetters g2 (word ++ sfx) length

/-- The random-word arm of `generateMediumName` (word already drawn). -/
def mediumFromWord (g1 : Nat → Nat) (word : List Char) (length : Nat) :
    List Char × (Nat → Nat) :=
  if length < word.length then (word.take length, g1)
  else if word.length < length then
    mediumCombine (onext g1) word
      (pkgMiddles.getD (secureRandInt g1 pkgMiddles.length) []) length
  else (word, g1)

/-- Model of `generateMediumName` (4–8 characters). -/
def generateMediumName (g : Nat → Nat) (length : Nat) : List Char × (Nat → Nat) :=
  match pkgPrefixes.find? (fun w => w.length = length) with
  | some w => (w, g)
  | none =>
    match pkgSuffixes.find? (fun w => w.length = length) with
    | some w => (w, g)
    | none =>
      if 4 ≤ length then
        mediumFromWord (onext g)
          (pkgPrefixes.getD (secureRandInt g pkgPrefixes.length) []) length
      else randomLetters g length

/-- The `prefix+middle+suffix` arm of `generateLongName`. -/
def longCombine (g3 : Nat → Nat) (w mid sfx : List Char) (length : Nat) :
    List Char × (Nat → Nat) :=
  if length ≤ (w ++ mid ++ sfx).length then ((w ++ mid ++ sfx).take length, g3)
  else padWithLetters g3 (w ++ mid ++ sfx) length

/-- The body of `generateLongName` once both words are drawn. -/
def longFromWords (g2 : Nat → Nat) (w sfx : List Char) (length : Nat) :
    List Char × (Nat → Nat) :=
  if length < (w ++ sfx).length then ((w ++ sfx).take length, g2)
  else if (w ++ sfx).length < length then
    longCombine (onext g2) w
      (pkgMiddles.getD (secureRandInt g2 pkgMiddles.length) []) sfx length
  else (w ++ sfx, g2)

/-- Model of `generateLongName` (9+ characters). -/
def generateLongName (g : Nat → Nat) (length : Nat) : List Char × (Nat → Nat) :=
  longFromWords (onext (onext g))
    (pkgPrefixes.getD (secureRandInt g pkgPrefixes.length) [])
    (pkgSuffixes.getD (secureRandInt (onext g) pkgSuffixes.length) []) length

/-- Model of `generateName`: dispatch on the requested length. -/
def generateName (g : Nat → Nat) (length : Nat) : List Char × (Nat → Nat) :=
  if length ≤ 3 then generateShortName g length
  else if length ≤ 8 then generateMediumName g length
  else generateLongName g length

/-- The alternating consonant/vowel loop of `generateRandomReadable`. -/
def readableLoop (g : Nat → Nat) (acc : List Char) (useVowel : Bool)
    (length : Nat) : List Char × (Nat → Nat) :=
  if acc.length < length then
    readableLoop (onext g)
      (acc ++ [if useVowel then vowelsList.getD (secureRandInt g 5) 'a'
        else consonantsList.getD (secureRandInt g 21) 'b'])
      (!useVowel) length
  else (acc, g)
termination_by length - acc.length
decreasing_by simp [List.length_append]; omega

/-- The first character kept by `generateRandomReadable`: the original's
first character when lowercase, else a random lowercase letter. -/
def readableStart (g : Nat → Nat) (original : List Char) :
    List Char × (Nat → Nat) :=
  match original with
  | c :: _ =>
      if 'a' ≤ c ∧ c ≤ 'z' then ([c], g)
      else ([lettersAZ.getD (secureRandInt g 26) 'a'], onext g)
  | [] => ([lettersAZ.getD (secureRandInt g 26) 'a'], onext g)

/-- The pre-dot body of `generateRandomReadable`. -/
def readableCore (g : Nat → Nat) (original : List Char) (length : Nat) :
    List Char × (Nat → Nat) :=
  readableLoop (readableStart g original).2 (readableStart g original).1 false length

/-- Model of `generateRandomReadable`: keep the original's first character
when it is a lowercase letter, then alternate consonants and vowels up to
`length`, then restore the trailing dot. -/
def generateRandomReadable (g : Nat → Nat) (original : List Char)
    (length : Nat) (hasDot : Bool) : List Char × (Nat → Nat) :=
  (if hasDot then (readableCore g original length).1 ++ ['.']
    else (readableCore g original length).1,
    (readableCore g original length).2)

/-- Go `strings.HasSuffix(name, ".")`. -/
def hasDotSuffix (l : List Char) : Bool :=
  match l.getLast? with
  | some c => c = '.'
  | none => false

/-- The bounded 1000-attempt uniqueness loop of `GeneratePackageName`
(`fuel` = remaining attempts; exhaustion falls back to
`generateRandomReadable`, which is not recorded in `usedNames`). -/
def genPkgCandidate (g : Nat → Nat) (hasDot : Bool) (L : Nat) : List Char :=
  if hasDot then (generateName g L).1 ++ ['.'] else (generateName g L).1

def genPkgLoop (used : List (List Char)) (hasDot : Bool) (L : Nat)
    (original : List Char) :
    Nat → (Nat → Nat) → List Char × (Nat → Nat) × List (List Char)
  | 0, g =>
      ((generateRandomReadable g original L hasDot).1,
        (generateRandomReadable g original L hasDot).2, used)
  | fuel + 1, g =>
      if genPkgCandidate g hasDot L ∈ used then
        genPkgLoop used hasDot L original fuel (generateName g L).2
      else (genPkgCandidate g hasDot L, (generateName g L).2,
        genPkgCandidate g hasDot L :: used)

/-- Model of `GeneratePackageName`: generate a natural-looking name of the
target byte length, unique against `used`. -/
def GeneratePackageName (g : Nat → Nat) (used : List (List Char))
    (originalName : List Char) (targetLength : Nat) :
    List Char × (Nat → Nat) × List (List Char) :=
  genPkgLoop used (hasDotSuffix originalName)
    (if hasDotSuffix originalName then targetLength - 1 else targetLength)
    originalName 1000 g

/-! ### Length facts for the generator -/

theorem randomLetters_length :
    ∀ (n : Nat) (g : Nat → Nat), ((randomLetters g n).1).length = n
  | 0, g => rfl
  | n + 1, g => by
      simp only [randomLetters, List.length_cons]
      rw [randomLetters_length n (onext g)]

theorem padWithLetters_length (t : Nat) :
    ∀ (base : List Char) (g : Nat → Nat),
      ((padWithLetters g base t).1).length = max base.length t := by
  have main : ∀ (n : Nat) (base : List Char) (g : Nat → Nat),
      t - base.length ≤ n →
      ((padWithLetters g base t).1).length = max base.length t := by
    intro n
    induction n with
    | zero =>
        intro base g h
        rw [padWithLetters, if_neg (by omega)]
        simp
        omega
    | succ n ih =>
        intro base g h
        by_cases hlt : base.length < t
        · rw [padWithLetters, if_pos hlt]
          rw [ih _ _ (by simp [List.length_append]; omega)]
          simp [List.length_append]
          omega
        · rw [padWithLetters, if_neg hlt]
          simp
          omega
  intro base g
  exact main (t - base.length) base g (le_refl _)

theorem generateShortName_length (g : Nat → Nat) (L : Nat) :
    ((generateShortName g L).1).length = L := by
  unfold generateShortName
  by_cases h : 0 < (shortNamesList.filter (fun n => n.length = L)).length
  · rw [if_pos h]
    have hmem : (shortNamesList.filter (fun n => n.length = L)).getD
        (secureRandInt g (shortNamesList.filter (fun n => n.length = L)).length)
        [] ∈ shortNamesList.filter (fun n => n.length = L) := by
      rw [List.getD_eq_getElem _ _ (secureRandInt_lt g _ h)]
      exact List.getElem_mem _
    have := (List.mem_filter.mp hmem).2
    simpa using this
  · rw [if_neg h]
    exact randomLetters_length L g

theorem mediumCombine_length (g2 : Nat → Nat) (word sfx : List Char) (L : Nat) :
    ((mediumCombine g2 word sfx L).1).length = L := by
  unfold mediumCombine
  by_cases h : L ≤ (word ++ sfx).length
  · rw [if_pos h]
    simp [List.length_append] at h ⊢
    omega
  · rw [if_neg h]
    rw [padWithLetters_length]
    simp [List.length_append] at h ⊢
    omega

theorem mediumFromWord_length (g1 : Nat → Nat) (word : List Char) (L : Nat) :
    ((mediumFromWord g1 word L).1).length = L := by
  unfold mediumFromWord
  by_cases h1 : L < word.length
  · rw [if_pos h1]
    simp
    omega
  · rw [if_neg h1]
    by_cases h2 : word.length < L
    · rw [if_pos h2]
      exact mediumCombine_length _ _ _ _
    · rw [if_neg h2]
      simp
      omega

theorem generateMediumName_length (g : Nat → Nat) (L : Nat) :
    ((generateMediumName g L).1).length = L := by
  unfold generateMediumName
  cases hf : pkgPrefixes.find? (fun w => w.length = L) with
  | some w =>
      have := List.find?_some hf
      simpa using this
  | none =>
      cases hs : pkgSuffixes.find? (fun w => w.length = L) with
      | some w =>
          have := List.find?_some hs
          simpa using this
      | none =>
          by_cases h4 : 4 ≤ L
          · rw [if_pos h4]
            exact mediumFromWord_length _ _ _
          · rw [if_neg h4]
            exact randomLetters_length L g

theorem longCombine_length (g3 : Nat → Nat) (w mid sfx : List Char) (L : Nat) :
    ((longCombine g3 w mid sfx L).1).length = L := by
  unfold longCombine
  by_cases h : L ≤ (w ++ mid ++ sfx).length
  · rw [if_pos h]
    simp [List.length_append] at h ⊢
    omega
  · rw [if_neg h]
    rw [padWithLetters_length]
    simp [List.length_append] at h ⊢
    omega

theorem longFromWords_length (g2 : Nat → Nat) (w sfx : List Char) (L : Nat) :
    ((longFromWords g2 w sfx L).1).length = L := by
  unfold longFromWords
  by_cases h1 : L < (w ++ sfx).length
  · rw [if_pos h1]
    simp [List.length_append] at h1 ⊢
    omega
  · rw [if_neg h1]
    by_cases h2 : (w ++ sfx).length < L
    · rw [if_pos h2]
      exact longCombine_length _ _ _ _ _
    · rw [if_neg h2]
      simp [List.length_append] at h1 h2 ⊢
      omega

theorem generateLongName_length (g : Nat → Nat) (L : Nat) :
    ((generateLongName g L).1).length = L := by
  unfold generateLongName
  exact longFromWords_length _ _ _ _

theorem generateName_length (g : Nat → Nat) (L : Nat) :
    ((generateName g L).1).length = L := by
  unfold generateName
  by_cases h3 : L ≤ 3
  · rw [if_pos h3]
    exact generateShortName_length g L
  · rw [if_neg h3]
    by_cases h8 : L ≤ 8
    · rw [if_pos h8]
      exact generateMediumName_length g L
    · rw [if_neg h8]
      exact generateLongName_length g L

theorem readableLoop_length (L : Nat) :
    ∀ (acc : List Char) (uv : Bool) (g : Nat → Nat),
      ((readableLoop g acc uv L).1).length = max acc.length L := by
  have main : ∀ (n : Nat) (acc : List Char) (uv : Bool) (g : Nat → Nat),
      L - acc.length ≤ n →
      ((readableLoop g acc uv L).1).length = max acc.length L := by
    intro n
    induction n with
    | zero =>
        intro acc uv g h
        rw [readableLoop, if_neg (by omega)]
        simp
        omega
    | succ n ih =>
        intro acc uv g h
        by_cases hlt : acc.length < L
        · rw [readableLoop, if_pos hlt]
          rw [ih _ _ _ (by simp [List.length_append]; omega)]
          simp [List.length_append]
          omega
        · rw [readableLoop, if_neg hlt]
          simp
          omega
  intro acc uv g
  exact main (L - acc.length) acc uv g (le_refl _)

theorem readableStart_length (g : Nat → Nat) (original : List Char) :
    ((readableStart g original).1).length = 1 := by
  cases original with
  | nil => rfl
  | cons c rest =>
      by_cases h : 'a' ≤ c ∧ c ≤ 'z'
      · simp [readableStart, h]
      · simp [readableStart, h]

theorem generateRandomReadable_length (g : Nat → Nat) (original : List Char)
    (L : Nat) (hasDot : Bool) :
    ((generateRandomReadable g original L hasDot).1).length =
      max 1 L + (if hasDot then 1 else 0) := by
  unfold generateRandomReadable readableCore
  have hc : ((readableLoop (readableStart g original).2
      (readableStart g original).1 false L).1).length = max 1 L := by
    rw [readableLoop_length, readableStart_length]
  cases hasDot with
  | true => simp [hc]
  | false => simp [hc]

theorem genPkgCandidate_length (g : Nat → Nat) (hasDot : Bool) (L : Nat) :
    (genPkgCandidate g hasDot L).length = L + (if hasDot then 1 else 0) := by
  unfold genPkgCandidate
  cases hasDot with
  | true => simp [generateName_length]
  | false => simp [generateName_length]

theorem genPkgLoop_length (used : List (List Char)) (hasDot : Bool) (L : Nat)
    (original : List Char) :
    ∀ (fuel : Nat) (g : Nat → Nat),
      ((genPkgLoop used hasDot L original fuel g).1).length =
          L + (if hasDot then 1 else 0) ∨
      ((genPkgLoop used hasDot L original fuel g).1).length =
          max 1 L + (if hasDot then 1 else 0) := by
  intro fuel
  induction fuel with
  | zero =>
      intro g
      right
      simp only [genPkgLoop]
      exact generateRandomReadable_length g original L hasDot
  | succ n ih =>
      intro g
      by_cases hmem : genPkgCandidate g hasDot L ∈ used
      · rw [genPkgLoop, if_pos hmem]
        exact ih _
      · rw [genPkgLoop, if_neg hmem]
        left
        exact genPkgCandidate_length g hasDot L

/-! ### No generated core name contains a dot -/

theorem getD_elem_noDot (l : List Char) (d : Char) (hl : ∀ c ∈ l, c ≠ '.')
    (hd : d ≠ '.') (k : Nat) : l.getD k d ≠ '.' := by
  by_cases h : k < l.length
  · rw [List.getD_eq_getElem _ _ h]
    exact hl _ (List.getElem_mem _)
  · rw [List.getD_eq_default _ _ (by omega)]
    exact hd

theorem getD_word_noDot (L : List (List Char))
    (hL : ∀ w ∈ L, ∀ c ∈ w, c ≠ '.') (k : Nat) :
    ∀ c ∈ L.getD k [], c ≠ '.' := by
  by_cases h : k < L.length
  · rw [List.getD_eq_getElem _ _ h]
    exact hL _ (List.getElem_mem _)
  · rw [List.getD_eq_default _ _ (by omega)]
    intro c hc
    simp at hc

theorem pkgPrefixes_noDot : ∀ w ∈ pkgPrefixes, ∀ c ∈ w, c ≠ '.' := by decide

theorem pkgSuffixes_noDot : ∀ w ∈ pkgSuffixes, ∀ c ∈ w, c ≠ '.' := by decide

theorem pkgMiddles_noDot : ∀ w ∈ pkgMiddles, ∀ c ∈ w, c ≠ '.' := by decide

theorem shortNamesList_noDot : ∀ w ∈ shortNamesList, ∀ c ∈ w, c ≠ '.' := by
  decide

theorem lettersAZ_noDot : ∀ c ∈ lettersAZ, c ≠ '.' := by decide

theorem vowelsList_noDot : ∀ c ∈ vowelsList, c ≠ '.' := by decide

theorem consonantsList_noDot : ∀ c ∈ consonantsList, c ≠ '.' := by decide

theorem randomLetters_noDot :
    ∀ (n : Nat) (g : Nat → Nat), ∀ c ∈ (randomLetters g n).1, c ≠ '.'
  | 0, g => by
      intro c hc
      simp [randomLetters] at hc
  | n + 1, g => by
      intro c hc
      simp only [randomLetters, List.mem_cons] at hc
      rcases hc with hc | hc
      · subst hc
        exact getD_elem_noDot _ _ lettersAZ_noDot (by decide) _
      · exact randomLetters_noDot n (onext g) c hc

theorem padWithLetters_noDot (t : Nat) :
    ∀ (base : List Char) (g : Nat → Nat), (∀ c ∈ base, c ≠ '.') →
      ∀ c ∈ (padWithLetters g base t).1, c ≠ '.' := by
  have main : ∀ (n : Nat) (base : List Char) (g : Nat → Nat),
      t - base.length ≤ n → (∀ c ∈ base, c ≠ '.') →
      ∀ c ∈ (padWithLetters g base t).1, c ≠ '.' := by
    intro n
    induction n with
    | zero =>
        intro base g h hb
        rw [padWithLetters, if_neg (by omega)]
        exact hb
    | succ n ih =>
        intro base g h hb
        by_cases hlt : base.length < t
        · rw [padWithLetters, if_pos hlt]
          refine ih _ _ (by simp [List.length_append]; omega) ?_
          intro c hc
          rcases List.mem_append.mp hc with hc | hc
          · exact hb c hc
          · simp only [List.mem_singleton] at hc
            subst hc
            exact getD_elem_noDot _ _ lettersAZ_noDot (by decide) _
        · rw [padWithLetters, if_neg hlt]
          exact hb
  intro base g hb
  exact main (t - base.length) base g (le_refl _) hb

theorem generateShortName_noDot (g : Nat → Nat) (L : Nat) :
    ∀ c ∈ (generateShortName g L).1, c ≠ '.' := by
  unfold generateShortName
  by_cases h : 0 < (shortNamesList.filter (fun n => n.length = L)).length
  · rw [if_pos h]
    intro c hc
    have hmem : (shortNamesList.filter (fun n => n.length = L)).getD
        (secureRandInt g (shortNamesList.filter (fun n => n.length = L)).length)
        [] ∈ shortNamesList.filter (fun n => n.length = L) := by
      rw [List.getD_eq_getElem _ _ (secureRandInt_lt g _ h)]
      exact List.getElem_mem _
    exact shortNamesList_noDot _ (List.mem_of_mem_filter hmem) c hc
  · rw [if_neg h]
    exact randomLetters_noDot L g

theorem mediumCombine_noDot (g2 : Nat → Nat) (word sfx : List Char) (L : Nat)
    (hw : ∀ c ∈ word, c ≠ '.') (hs : ∀ c ∈ sfx, c ≠ '.') :
    ∀ c ∈ (mediumCombine g2 word sfx L).1, c ≠ '.' := by
  have hws : ∀ c ∈ word ++ sfx, c ≠ '.' := by
    intro c hc
    rcases List.mem_append.mp hc with hc | hc
    · exact hw c hc
    · exact hs c hc
  unfold mediumCombine
  by_cases h : L ≤ (word ++ sfx).length
  · rw [if_pos h]
    intro c hc
    exact hws c (List.take_subset _ _ hc)
  · rw [if_neg h]
    exact padWithLetters_noDot _ _ _ hws

theorem mediumFromWord_noDot (g1 : Nat → Nat) (word : List Char) (L : Nat)
    (hw : ∀ c ∈ word, c ≠ '.') :
    ∀ c ∈ (mediumFromWord g1 word L).1, c ≠ '.' := by
  unfold mediumFromWord
  by_cases h1 : L < word.length
  · rw [if_pos h1]
    intro c hc
    exact hw c (List.take_subset _ _ hc)
  · rw [if_neg h1]
    by_cases h2 : word.length < L
    · rw [if_pos h2]
      exact mediumCombine_noDot _ _ _ _ hw (getD_word_noDot _ pkgMiddles_noDot _)
    · rw [if_neg h2]
      exact hw

theorem generateMediumName_noDot (g : Nat → Nat) (L : Nat) :
    ∀ c ∈ (generateMediumName g L).1, c ≠ '.' := by
  unfold generateMediumName
  cases hf : pkgPrefixes.find? (fun w => w.length = L) with
  | some w => exact pkgPrefixes_noDot _ (List.mem_of_find?_eq_some hf)
  | none =>
      cases hs : pkgSuffixes.find? (fun w => w.length = L) with
      | some w => exact pkgSuffixes_noDot _ (List.mem_of_find?_eq_some hs)
      | none =>
          by_cases h4 : 4 ≤ L
          · rw [if_pos h4]
            exact mediumFromWord_noDot _ _ _ (getD_word_noDot _ pkgPrefixes_noDot _)
          · rw [if_neg h4]
            exact randomLetters_noDot L g

theorem longCombine_noDot (g3 : Nat → Nat) (w mid sfx : List Char) (L : Nat)
    (hw : ∀ c ∈ w, c ≠ '.') (hm : ∀ c ∈ mid, c ≠ '.')
    (hs : ∀ c ∈ sfx, c ≠ '.') :
    ∀ c ∈ (longCombine g3 w mid sfx L).1, c ≠ '.' := by
  have hall : ∀ c ∈ w ++ mid ++ sfx, c ≠ '.' := by
    intro c hc
    rcases List.mem_append.mp hc with hc | hc
    · rcases List.mem_append.mp hc with hc | hc
      · exact hw c hc
      · exact hm c hc
    · exact hs c hc
  unfold longCombine
  by_cases h : L ≤ (w ++ mid ++ sfx).length
  · rw [if_pos h]
    intro c hc
    exact hall c (List.take_subset _ _ hc)
  · rw [if_neg h]
    exact padWithLetters_noDot _ _ _ hall

theorem longFromWords_noDot (g2 : Nat → Nat) (w sfx : List Char) (L : Nat)
    (hw : ∀ c ∈ w, c ≠ '.') (hs : ∀ c ∈ sfx, c ≠ '.') :
    ∀ c ∈ (longFromWords g2 w sfx L).1, c ≠ '.' := by
  have hws : ∀ c ∈ w ++ sfx, c ≠ '.' := by
    intro c hc
    rcases List.mem_append.mp hc with hc | hc
    · exact hw c hc
    · exact hs c hc
  unfold longFromWords
  by_cases h1 : L < (w ++ sfx).length
  · rw [if_pos h1]
    intro c hc
    exact hws c (List.take_subset _ _ hc)
  · rw [if_neg h1]
    by_cases h2 : (w ++ sfx).length < L
    · rw [if_pos h2]
      exact longCombine_noDot _ _ _ _ _ hw (getD_word_noDot _ pkgMiddles_noDot _) hs
    · rw [if_neg h2]
      exact hws

theorem generateLongName_noDot (g : Nat → Nat) (L : Nat) :
    ∀ c ∈ (generateLongName g L).1, c ≠ '.' := by
  unfold generateLongName
  exact longFromWords_noDot _ _ _ _ (getD_word_noDot _ pkgPrefixes_noDot _)
    (getD_word_noDot _ pkgSuffixes_noDot _)

theorem generateName_noDot (g : Nat → Nat) (L : Nat) :
    ∀ c ∈ (generateName g L).1, c ≠ '.' := by
  unfold generateName
  by_cases h3 : L ≤ 3
  · rw [if_pos h3]
    exact generateShortName_noDot g L
  · rw [if_neg h3]
    by_cases h8 : L ≤ 8
    · rw [if_pos h8]
      exact generateMediumName_noDot g L
    · rw [if_neg h8]
      exact generateLongName_noDot g L

theorem readableStart_noDot (g : Nat → Nat) (original : List Char) :
    ∀ c ∈ (readableStart g original).1, c ≠ '.' := by
  cases original with
  | nil =>
      intro c hc
      simp only [readableStart, List.mem_singleton] at hc
      subst hc
      exact getD_elem_noDot _ _ lettersAZ_noDot (by decide) _
  | cons c0 rest =>
      by_cases h : 'a' ≤ c0 ∧ c0 ≤ 'z'
      · intro c hc
        simp only [readableStart, if_pos h, List.mem_singleton] at hc
        subst hc
        intro hEq
        subst hEq
        exact absurd h.1 (by decide)
      · intro c hc
        simp only [readableStart, if_neg h, List.mem_singleton] at hc
        subst hc
        exact getD_elem_noDot _ _ lettersAZ_noDot (by decide) _

theorem readableLoop_noDot (L : Nat) :
    ∀ (acc : List Char) (uv : Bool) (g : Nat → Nat), (∀ c ∈ acc, c ≠ '.') →
      ∀ c ∈ (readableLoop g acc uv L).1, c ≠ '.' := by
  have main : ∀ (n : Nat) (acc : List Char) (uv : Bool) (g : Nat → Nat),
      L - acc.length ≤ n → (∀ c ∈ acc, c ≠ '.') →
      ∀ c ∈ (readableLoop g acc uv L).1, c ≠ '.' := by
    intro n
    induction n with
    | zero =>
        intro acc uv g h hb
        rw [readableLoop, if_neg (by omega)]
        exact hb
    | succ n ih =>
        intro acc uv g h hb
        by_cases hlt : acc.length < L
        · rw [readableLoop, if_pos hlt]
          refine ih _ _ _ (by simp [List.length_append]; omega) ?_
          intro c hc
          rcases List.mem_append.mp hc with hc | hc
          · exact hb c hc
          · simp only [List.mem_singleton] at hc
            subst hc
            cases uv with
            | true =>
                rw [if_pos rfl]
                exact getD_elem_noDot _ _ vowelsList_noDot (by decide) _
            | false =>
                rw [if_neg (by decide)]
                exact getD_elem_noDot _ _ consonantsList_noDot (by decide) _
        · rw [readableLoop, if_neg hlt]
          exact hb
  intro acc uv g hb
  exact main (L - acc.length) acc uv g (le_refl _) hb

theorem readableCore_noDot (g : Nat → Nat) (original : List Char) (L : Nat) :
    ∀ c ∈ (readableCore g original L).1, c ≠ '.' := by
  unfold readableCore
  exact readableLoop_noDot _ _ _ _ (readableStart_noDot g original)

/-- A list whose characters are all non-dots has no dot suffix. -/
theorem hasDotSuffix_eq_false (l : List Char) (h : ∀ c ∈ l, c ≠ '.') :
    hasDotSuffix l = false := by
  unfold hasDotSuffix
  cases hl : l.getLast? with
  | none => rfl
  | some c =>
      have hc : c ∈ l := List.mem_of_mem_getLast? hl
      simp [h c hc]

theorem hasDotSuffix_concat (l : List Char) :
    hasDotSuffix (l ++ ['.']) = true := by
  unfold hasDotSuffix
  rw [List.getLast?_concat]
  simp

theorem generateRandomReadable_fst_true (g : Nat → Nat) (original : List Char)
    (L : Nat) :
    (generateRandomReadable g original L true).1 =
      (readableCore g original L).1 ++ ['.'] := rfl

theorem generateRandomReadable_fst_false (g : Nat → Nat) (original : List Char)
    (L : Nat) :
    (generateRandomReadable g original L false).1 =
      (readableCore g original L).1 := rfl

theorem genPkgCandidate_true (g : Nat → Nat) (L : Nat) :
    genPkgCandidate g true L = (generateName g L).1 ++ ['.'] := rfl

theorem genPkgCandidate_false (g : Nat → Nat) (L : Nat) :
    genPkgCandidate g false L = (generateName g L).1 := rfl

theorem genPkgLoop_dotSuffix (used : List (List Char)) (hasDot : Bool) (L : Nat)
    (original : List Char) :
    ∀ (fuel : Nat) (g : Nat → Nat),
      hasDotSuffix ((genPkgLoop used hasDot L original fuel g).1) = hasDot := by
  intro fuel
  induction fuel with
  | zero =>
      intro g
      show hasDotSuffix ((generateRandomReadable g original L hasDot).1) = hasDot
      cases hasDot with
      | true =>
          rw [generateRandomReadable_fst_true]
          exact hasDotSuffix_concat _
      | false =>
          rw [generateRandomReadable_fst_false]
          exact hasDotSuffix_eq_false _ (readableCore_noDot g original L)
  | succ n ih =>
      intro g
      by_cases hmem : genPkgCandidate g hasDot L ∈ used
      · rw [genPkgLoop, if_pos hmem]
        exact ih _
      · rw [genPkgLoop, if_neg hmem]
        show hasDotSuffix (genPkgCandidate g hasDot L) = hasDot
        cases hasDot with
        | true =>
            rw [genPkgCandidate_true]
            exact hasDotSuffix_concat _
        | false =>
            rw [genPkgCandidate_false]
            exact hasDotSuffix_eq_false _ (generateName_noDot g L)

/-- C10 amended: for every `originalName` and `targetLength >= 1`,
`GeneratePackageName` returns at least `targetLength` bytes, exactly
`targetLength` whenever `targetLength >= 2` or the original has no
trailing dot, and the result ends in a dot exactly when the original
does.  (Exactness can fail only for `targetLength = 1` with a trailing
dot, on the 1000-attempt fallback path.) -/
theorem GeneratePackageName_length_spec (g : Nat → Nat)
    (used : List (List Char)) (orig : List Char) (T : Nat) (h : 1 ≤ T) :
    T ≤ ((GeneratePackageName g used orig T).1).length ∧
      ((2 ≤ T ∨ hasDotSuffix orig = false) →
        ((GeneratePackageName g used orig T).1).length = T) ∧
      hasDotSuffix ((GeneratePackageName g used orig T).1) =
        hasDotSuffix orig := by
  unfold GeneratePackageName
  cases hd : hasDotSuffix orig with
  | true =>
      have hlen := genPkgLoop_length used true (T - 1) orig 1000 g
      have hdot := genPkgLoop_dotSuffix used true (T - 1) orig 1000 g
      simp only [if_pos rfl, if_true] at hlen ⊢
      refine ⟨?_, ?_, hdot⟩
      · rcases hlen with h1 | h1 <;> omega
      · intro h2
        rcases h2 with h2 | h2
        · rcases hlen with h1 | h1 <;> omega
        · exact absurd h2 (by decide)
  | false =>
      have hlen := genPkgLoop_length used false T orig 1000 g
      have hdot := genPkgLoop_dotSuffix used false T orig 1000 g
      simp only [Bool.false_eq_true, if_false] at hlen ⊢
      refine ⟨?_, ?_, hdot⟩
      · rcases hlen with h1 | h1 <;> omega
      · intro _
        rcases hlen with h1 | h1 <;> omega

/-- Witness: at target length 8 for `"runtime."` the generated
replacement has exactly 8 bytes and a trailing dot. -/
theorem GeneratePackageName_length_spec_witness :
    (1 : Nat) ≤ 8 ∧
      (8 ≤ ((GeneratePackageName (fun _ => 0) [] "runtime.".toList 8).1).length ∧
        ((2 ≤ 8 ∨ hasDotSuffix "runtime.".toList = false) →
          ((GeneratePackageName (fun _ => 0) [] "runtime.".toList 8).1).length = 8) ∧
        hasDotSuffix ((GeneratePackageName (fun _ => 0) [] "runtime.".toList 8).1) =
          hasDotSuffix "runtime.".toList) :=
  ⟨by decide,
    GeneratePackageName_length_spec (fun _ => 0) [] "runtime.".toList 8 (by decide)⟩

/-- C10 counterexample: at target length 1 with original `"."`, when the
one-byte candidate `"."` is already in `usedNames`, all 1000 attempts
collide and the random-readable fallback returns a 2-byte name — not the
requested 1 byte.  So the exact-length property does not hold on every
path. -/
theorem GeneratePackageName_length_counterexample :
    ((GeneratePackageName (fun _ => 0) [['.']] ['.'] 1).1).length = 2 ∧
      (2 : Nat) ≠ 1 := by
  have hcand : ∀ g : Nat → Nat, genPkgCandidate g true 0 = ['.'] := fun g => rfl
  have hg2 : ∀ g : Nat → Nat, (generateName g 0).2 = g := fun g => rfl
  have hloop : ∀ (n : Nat) (g : Nat → Nat),
      genPkgLoop [['.']] true 0 ['.'] n g =
        ((generateRandomReadable g ['.'] 0 true).1,
          (generateRandomReadable g ['.'] 0 true).2, [['.']]) := by
    intro n
    induction n with
    | zero => intro g; rfl
    | succ n ih =>
        intro g
        rw [genPkgLoop, if_pos (by rw [hcand]; simp)]
        rw [hg2]
        exact ih g
  constructor
  · have heq : GeneratePackageName (fun _ => 0) [['.']] ['.'] 1 =
        genPkgLoop [['.']] true 0 ['.'] 1000 (fun _ => 0) := rfl
    rw [heq, hloop]
    show ((generateRandomReadable (fun _ => 0) ['.'] 0 true).1).length = 2
    rw [generateRandomReadable_length]
    rfl
  · decide

/-! ## The binary patcher (`obfuscateFunctionNames` and the path pass) -/

/-- Go `[]byte(s)` for the ASCII names handled here. -/
def strBytes (s : List Char) : List Nat := s.map Char.toNat

/-- The linker-obfuscation configuration (`LinkConfig`), with the Go map
`PackageReplacements` modelled as an association list in iteration order. -/
structure LinkConfig where
  RemoveFuncNames : Bool
  DisablePclntab : Bool
  OnlyObfuscateProject : Bool
  PackageReplacements : List (List Char × List Char)

/-- Go `strings.TrimSuffix(s, ".")`. -/
def trimDotSuffix (l : List Char) : List Char :=
  if hasDotSuffix l then l.dropLast else l

/-- The keys mapped to `true` in the `standardLibs` map of
`obfuscateFunctionNames` (note: `"main"` is mapped to `false` there). -/
def stdLibsFuncNames : List (List Char) :=
  ["runtime", "sync", "fmt", "os", "io", "net", "http", "bufio", "bytes",
    "strings", "strconv", "time", "math", "errors", "context", "encoding",
    "json", "xml", "base64", "hex", "unicode", "regexp", "log", "sort",
    "path", "filepath", "syscall"].map String.toList

/-- The keys mapped to `true` in the `standardLibs` map of
`replaceProjectPackagePathsGlobal` (there `"main"` is `true`). -/
def stdLibsPaths : List (List Char) :=
  "main".toList :: stdLibsFuncNames

/-- The default function-name prefix patterns (full standard mode). -/
def defaultFuncPatterns : List (List Char) :=
  ["main.", "runtime.", "sync.", "fmt.", "os.", "io.", "net.", "http."].map
    String.toList

/-- The default patterns in minimal (`OnlyObfuscateProject`) mode. -/
def minimalFuncPatterns : List (List Char) := ["main.".toList]

/-- Append a trailing dot unless one is present (pattern normalization in
`obfuscateFunctionNames`). -/
def ensureDot (l : List Char) : List Char :=
  if hasDotSuffix l then l else l ++ ['.']

/-- Build the pattern/replacement byte pairs for the default-pattern path:
each replacement is freshly generated at the pattern's exact length. -/
def buildDefaultPairs : List (List Char) → (Nat → Nat) → List (List Char) →
    List (List Nat × List Nat) × (Nat → Nat) × List (List Char)
  | [], g, used => ([], g, used)
  | p :: rest, g, used =>
      ((strBytes p, strBytes (GeneratePackageName g used p p.length).1) ::
          (buildDefaultPairs rest (GeneratePackageName g used p p.length).2.1
            (GeneratePackageName g used p p.length).2.2).1,
        (buildDefaultPairs rest (GeneratePackageName g used p p.length).2.1
          (GeneratePackageName g used p p.length).2.2).2)

/-- The per-entry replacement normalization of the user-supplied path:
keep the user's replacement when it already has the pattern's length,
otherwise regenerate one of exactly that length. -/
def configReplacement (g : Nat → Nat) (used : List (List Char))
    (origPat replPat : List Char) : List Char × (Nat → Nat) × List (List Char) :=
  if replPat.length ≠ origPat.length then
    GeneratePackageName g used origPat origPat.length
  else (replPat, g, used)

/-- Build the pattern/replacement byte pairs from user-supplied
`PackageReplacements` (skipping standard-library names in
`OnlyObfuscateProject` mode). -/
def buildConfigPairs (onlyProject : Bool) :
    List (List Char × List Char) → (Nat → Nat) → List (List Char) →
    List (List Nat × List Nat) × (Nat → Nat) × List (List Char)
  | [], g, used => ([], g, used)
  | (original, replacement) :: rest, g, used =>
      if onlyProject ∧ trimDotSuffix original ∈ stdLibsFuncNames then
        buildConfigPairs onlyProject rest g used
      else
        ((strBytes (ensureDot original),
            strBytes (configReplacement g used (ensureDot original)
              (ensureDot replacement)).1) ::
          (buildConfigPairs onlyProject rest
            (configReplacement g used (ensureDot original)
              (ensureDot replacement)).2.1
            (configReplacement g used (ensureDot original)
              (ensureDot replacement)).2.2).1,
          (buildConfigPairs onlyProject rest
            (configReplacement g used (ensureDot original)
              (ensureDot replacement)).2.1
            (configReplacement g used (ensureDot original)
              (ensureDot replacement)).2.2).2)

/-- The pattern/replacement pairs used by the first (pclntab) pass. -/
def funcNamePairs (g : Nat → Nat) (cfg : LinkConfig) :
    List (List Nat × List Nat) :=
  if 0 < cfg.PackageReplacements.length then
    (buildConfigPairs cfg.OnlyObfuscateProject cfg.PackageReplacements g []).1
  else if cfg.OnlyObfuscateProject then
    (buildDefaultPairs minimalFuncPatterns g []).1
  else (buildDefaultPairs defaultFuncPatterns g []).1

/-- One applied patch: offset, matched pattern bytes, written bytes. -/
abbrev Patch : Type := Nat × List Nat × List Nat

/-- The in-window scan of the first pass for one pattern: advance one byte
at a time; on a safe match write the replacement when it is not longer
than the pattern (exactly the two write branches of the source), skip a
longer one. -/
def scanPatternFrom (pat repl : List Nat) (limit : Nat) :
    Nat → Nat → List Nat → List Patch → List Nat × List Patch
  | 0, _, d, acc => (d, acc)
  | fuel + 1, j, d, acc =>
      if j < limit - pat.length then
        if byteSlice d j pat.length = pat then
          if isSafeFunctionNamePrefix d j pat then
            if repl.length = pat.length then
              scanPatternFrom pat repl limit fuel (j + 1) (writeBytes d j repl)
                (acc ++ [(j, pat, repl)])
            else if repl.length < pat.length then
              scanPatternFrom pat repl limit fuel (j + 1) (writeBytes d j repl)
                (acc ++ [(j, pat, repl)])
            else scanPatternFrom pat repl limit fuel (j + 1) d acc
          else scanPatternFrom pat repl limit fuel (j + 1) d acc
        else scanPatternFrom pat repl limit fuel (j + 1) d acc
      else (d, acc)

/-- First pass over all pairs, in order, threading the buffer. -/
def applyFuncNamePatterns (off limit : Nat) :
    List (List Nat × List Nat) → List Nat → List Patch →
    List Nat × List Patch
  | [], d, acc => (d, acc)
  | (pat, repl) :: rest, d, acc =>
      applyFuncNamePatterns off limit rest
        (scanPatternFrom pat repl limit limit off d acc).1
        (scanPatternFrom pat repl limit limit off d acc).2

/-- Model of `isSafePackagePathReplacement`: the looser neighbor check of
the whole-file path pass (digits allowed before a match). -/
def isSafePackagePathReplacement (data : List Nat) (pos : Nat) (len : Nat) :
    Bool :=
  if 0 < pos ∧ (isByteLetter (data.getD (pos - 1) 0) ||
      data.getD (pos - 1) 0 == 95) then false
  else if pos + len < data.length ∧ (isByteLetter (data.getD (pos + len) 0) ||
      isByteDigit (data.getD (pos + len) 0) ||
      data.getD (pos + len) 0 == 95) then false
  else true

/-- The write of the path pass: copy the replacement, then zero the
remaining bytes of the original occurrence. -/
def pathWrite (d : List Nat) (j : Nat) (repl : List Nat) (patLen : Nat) :
    List Nat :=
  writeBytes (writeBytes d j repl) (j + repl.length)
    (List.replicate (patLen - repl.length) 0)

/-- The whole-file scan of the path pass for one pattern: on a safe match
with a not-longer replacement, write and jump past the occurrence. -/
def pathScanFrom (pat repl : List Nat) :
    Nat → Nat → List Nat → List Patch → List Nat × List Patch
  | 0, _, d, acc => (d, acc)
  | fuel + 1, j, d, acc =>
      if j < d.length - pat.length then
        if byteSlice d j pat.length = pat then
          if isSafePackagePathReplacement d j pat.length then
            if repl.length ≤ pat.length then
              pathScanFrom pat repl fuel (j + pat.length)
                (pathWrite d j repl pat.length) (acc ++ [(j, pat, repl)])
            else pathScanFrom pat repl fuel (j + 1) d acc
          else pathScanFrom pat repl fuel (j + 1) d acc
        else pathScanFrom pat repl fuel (j + 1) d acc
      else (d, acc)

/-- Model of `replaceProjectPackagePathsGlobal`: for each configured
entry, trim the trailing dot, skip standard-library names and paths
without a slash, then scan the whole file. -/
def replaceProjectPackagePathsGlobal :
    List (List Char × List Char) → List Nat → List Patch →
    List Nat × List Patch
  | [], d, acc => (d, acc)
  | (original, replacement) :: rest, d, acc =>
      if trimDotSuffix original ∈ stdLibsPaths then
        replaceProjectPackagePathsGlobal rest d acc
      else if '/' ∈ trimDotSuffix original then
        replaceProjectPackagePathsGlobal rest
          (pathScanFrom (strBytes (trimDotSuffix original))
            (strBytes (trimDotSuffix replacement)) d.length 0 d acc).1
          (pathScanFrom (strBytes (trimDotSuffix original))
            (strBytes (trimDotSuffix replacement)) d.length 0 d acc).2
      else replaceProjectPackagePathsGlobal rest d acc

/-- The pclntab search window end: ten binary megabytes past the found
offset, clipped to the end of the file. -/
def pclntabSearchEnd (off : Nat) (d : List Nat) : Nat :=
  if d.length < off + 10485760 then d.length else off + 10485760

/-- Model of `obfuscateFunctionNames`: build the pairs, run the in-window
prefix pass, then the whole-file path pass.  Returns the final buffer, the
patches of the first pass, and the patches of the path pass. -/
def obfuscateFunctionNames (g : Nat → Nat) (cfg : LinkConfig) (d : List Nat)
    (off : Nat) : List Nat × List Patch × List Patch :=
  ((replaceProjectPackagePathsGlobal cfg.PackageReplacements
      (applyFuncNamePatterns off (pclntabSearchEnd off d) (funcNamePairs g cfg)
        d []).1 []).1,
    (applyFuncNamePatterns off (pclntabSearchEnd off d) (funcNamePairs g cfg)
      d []).2,
    (replaceProjectPackagePathsGlobal cfg.PackageReplacements
      (applyFuncNamePatterns off (pclntabSearchEnd off d) (funcNamePairs g cfg)
        d []).1 []).2)

/-! ## The denylist check of the source (`isSafeToReplace`), used only by
the uncalled `replaceBytesStrict` — embedded to witness that the live path
pass does not consult it. -/

def bytesStartsWith (l p : List Nat) : Bool := l.take p.length = p

def bytesContains : List Nat → List Nat → Bool
  | l, p =>
      if bytesStartsWith l p then true
      else
        match l with
        | [] => false
        | _ :: rest => bytesContains rest p

def dangerousPatterns : List (List Nat) :=
  ["/System/Library/", "/usr/lib/", "/usr/local/", "Library/Frameworks/",
    ".framework/", ".dylib", "/Cryptexes/"].map (fun s => strBytes s.toList)

def afterDangerousPatterns : List (List Nat) :=
  [".framework", ".dylib"].map (fun s => strBytes s.toList)

/-- Model of `isSafeToReplace`: the system-path denylist check. -/
def isSafeToReplace (data : List Nat) (pos : Nat) (len : Nat) : Bool :=
  if dangerousPatterns.any
      (fun dp => bytesContains (byteSlice data (pos - 100) (pos - (pos - 100))) dp)
    then false
  else if afterDangerousPatterns.any
      (fun dp => bytesStartsWith (byteSlice data (pos + len) 50) dp)
    then false
  else true

/-! ### C1: the in-window pass only ever writes equal-length patches -/

theorem GeneratePackageName_length_ge (g : Nat → Nat) (used : List (List Char))
    (orig : List Char) (T : Nat) (h : 1 ≤ T) :
    T ≤ ((GeneratePackageName g used orig T).1).length :=
  (GeneratePackageName_length_spec g used orig T h).1

theorem ensureDot_length_pos (l : List Char) : 1 ≤ (ensureDot l).length := by
  unfold ensureDot
  by_cases h : hasDotSuffix l = true
  · rw [if_pos h]
    cases l with
    | nil => exact absurd h (by decide)
    | cons c rest => simp
  · rw [if_neg h]
    simp

theorem configReplacement_length_ge (g : Nat → Nat) (used : List (List Char))
    (op rp : List Char) (h : 1 ≤ op.length) :
    op.length ≤ ((configReplacement g used op rp).1).length := by
  unfold configReplacement
  by_cases hne : rp.length ≠ op.length
  · rw [if_pos hne]
    exact GeneratePackageName_length_ge g used op op.length h
  · rw [if_neg hne]
    simp only [not_not] at hne
    simp
    omega

theorem scanPatternFrom_equal_length (pat repl : List Nat) (limit : Nat)
    (hle : ¬ repl.length < pat.length) :
    ∀ (fuel j : Nat) (d : List Nat) (acc : List Patch),
      (∀ e ∈ acc, (e.2.2).length = (e.2.1).length) →
      ∀ e ∈ (scanPatternFrom pat repl limit fuel j d acc).2,
        (e.2.2).length = (e.2.1).length := by
  intro fuel
  induction fuel with
  | zero =>
      intro j d acc hacc e he
      exact hacc e he
  | succ n ih =>
      intro j d acc hacc e he
      rw [scanPatternFrom] at he
      by_cases h1 : j < limit - pat.length
      · rw [if_pos h1] at he
        by_cases h2 : byteSlice d j pat.length = pat
        · rw [if_pos h2] at he
          by_cases h3 : isSafeFunctionNamePrefix d j pat = true
          · rw [if_pos h3] at he
            by_cases h4 : repl.length = pat.length
            · rw [if_pos h4] at he
              refine ih _ _ _ ?_ e he
              intro e' he'
              rcases List.mem_append.mp he' with he' | he'
              · exact hacc e' he'
              · simp only [List.mem_singleton] at he'
                subst he'
                exact h4
            · rw [if_neg h4] at he
              rw [if_neg hle] at he
              exact ih _ _ _ hacc e he
          · rw [if_neg h3] at he
            exact ih _ _ _ hacc e he
        · rw [if_neg h2] at he
          exact ih _ _ _ hacc e he
      · rw [if_neg h1] at he
        exact hacc e he

theorem applyFuncNamePatterns_equal_length (off limit : Nat) :
    ∀ (pairs : List (List Nat × List Nat)) (d : List Nat) (acc : List Patch),
      (∀ p ∈ pairs, ¬ (p.2).length < (p.1).length) →
      (∀ e ∈ acc, (e.2.2).length = (e.2.1).length) →
      ∀ e ∈ (applyFuncNamePatterns off limit pairs d acc).2,
        (e.2.2).length = (e.2.1).length := by
  intro pairs
  induction pairs with
  | nil =>
      intro d acc _ hacc e he
      exact hacc e he
  | cons pr rest ih =>
      intro d acc hpairs hacc e he
      cases pr with
      | mk pat repl =>
          rw [applyFuncNamePatterns] at he
          refine ih _ _ (fun p hp => hpairs p (by simp [hp])) ?_ e he
          exact scanPatternFrom_equal_length pat repl limit
            (hpairs (pat, repl) (by simp)) limit off d acc hacc

theorem buildDefaultPairs_no_shorter :
    ∀ (pats : List (List Char)) (g : Nat → Nat) (used : List (List Char)),
      (∀ p ∈ pats, 1 ≤ p.length) →
      ∀ pr ∈ (buildDefaultPairs pats g used).1,
        ¬ (pr.2).length < (pr.1).length := by
  intro pats
  induction pats with
  | nil =>
      intro g used _ pr hpr
      simp [buildDefaultPairs] at hpr
  | cons p rest ih =>
      intro g used hp pr hpr
      rw [buildDefaultPairs] at hpr
      simp only [List.mem_cons] at hpr
      rcases hpr with hpr | hpr
      · subst hpr
        simp only [strBytes, List.length_map]
        have := GeneratePackageName_length_ge g used p p.length
          (hp p (by simp))
        omega
      · exact ih _ _ (fun q hq => hp q (by simp [hq])) pr hpr

theorem buildConfigPairs_no_shorter (onlyProject : Bool) :
    ∀ (entries : List (List Char × List Char)) (g : Nat → Nat)
      (used : List (List Char)),
      ∀ pr ∈ (buildConfigPairs onlyProject entries g used).1,
        ¬ (pr.2).length < (pr.1).length := by
  intro entries
  induction entries with
  | nil =>
      intro g used pr hpr
      simp [buildConfigPairs] at hpr
  | cons entry rest ih =>
      intro g used pr hpr
      cases entry with
      | mk original replacement =>
          rw [buildConfigPairs] at hpr
          by_cases hskip : onlyProject = true ∧
              trimDotSuffix original ∈ stdLibsFuncNames
          · rw [if_pos hskip] at hpr
            exact ih _ _ pr hpr
          · rw [if_neg hskip] at hpr
            simp only [List.mem_cons] at hpr
            rcases hpr with hpr | hpr
            · subst hpr
              simp only [strBytes, List.length_map]
              have := configReplacement_length_ge g used (ensureDot original)
                (ensureDot replacement) (ensureDot_length_pos original)
              omega
            · exact ih _ _ pr hpr

/-- C1: every patch the function-name prefix pass applies inside the
pclntab search window writes a replacement of exactly the byte length of
the matched pattern — a candidate of differing length is never written
(longer candidates are skipped; the generator never produces shorter
ones). -/
theorem obfuscateFunctionNames_equal_length_patches (g : Nat → Nat)
    (cfg : LinkConfig) (d : List Nat) (off : Nat) :
    ∀ e ∈ (obfuscateFunctionNames g cfg d off).2.1,
      (e.2.2).length = (e.2.1).length := by
  intro e he
  have hpairs : ∀ p ∈ funcNamePairs g cfg, ¬ (p.2).length < (p.1).length := by
    unfold funcNamePairs
    by_cases hc : 0 < cfg.PackageReplacements.length
    · rw [if_pos hc]
      exact buildConfigPairs_no_shorter cfg.OnlyObfuscateProject
        cfg.PackageReplacements g []
    · rw [if_neg hc]
      by_cases hm : cfg.OnlyObfuscateProject = true
      · rw [if_pos hm]
        exact buildDefaultPairs_no_shorter minimalFuncPatterns g []
          (by decide)
      · rw [if_neg hm]
        exact buildDefaultPairs_no_shorter defaultFuncPatterns g []
          (by decide)
  exact applyFuncNamePatterns_equal_length off (pclntabSearchEnd off d)
    (funcNamePairs g cfg) d [] hpairs (by intro e' he'; simp at he') e he

/-! ### C7: the whole-file project-path replacement pass -/

theorem writeBytes_eq_of_le (d : List Nat) (j : Nat) (r : List Nat)
    (h : j + r.length ≤ d.length) :
    writeBytes d j r = d.take j ++ r ++ d.drop (j + r.length) := by
  unfold writeBytes
  rw [List.take_of_length_le (by omega : r.length ≤ d.length - j)]

/-- The path-pass write puts the replacement followed by zero padding over
the matched occurrence. -/
theorem pathWrite_slice (d : List Nat) (j : Nat) (repl : List Nat)
    (patLen : Nat) (hle : repl.length ≤ patLen) (hb : j + patLen ≤ d.length) :
    byteSlice (pathWrite d j repl patLen) j patLen =
      repl ++ List.replicate (patLen - repl.length) 0 := by
  have hjr : j + repl.length ≤ d.length := by omega
  have h1 : writeBytes d j repl = d.take j ++ repl ++ d.drop (j + repl.length) :=
    writeBytes_eq_of_le d j repl hjr
  have hlen1 : (writeBytes d j repl).length = d.length := writeBytes_length d j repl
  have hAlen : (d.take j).length = j := by
    simp
    omega
  have hARlen : (d.take j ++ repl).length = j + repl.length := by
    simp [hAlen]
  have h2 := writeBytes_eq_of_le (writeBytes d j repl) (j + repl.length)
    (List.replicate (patLen - repl.length) 0)
    (by rw [hlen1]; simp; omega)
  rw [List.length_replicate] at h2
  have htake : (writeBytes d j repl).take (j + repl.length) = d.take j ++ repl := by
    rw [h1, ← hARlen, List.take_left]
  have hdrop : (writeBytes d j repl).drop (j + repl.length + (patLen - repl.length)) =
      d.drop (j + patLen) := by
    rw [h1]
    have hsplit : j + repl.length + (patLen - repl.length) =
        (d.take j ++ repl).length + (patLen - repl.length) := by
      rw [hARlen]
    rw [hsplit, List.drop_append, List.drop_drop]
    congr 1
    omega
  have hmain : pathWrite d j repl patLen =
      (d.take j ++ repl) ++ List.replicate (patLen - repl.length) 0 ++
        d.drop (j + patLen) := by
    unfold pathWrite
    rw [h2, htake, hdrop]
  rw [hmain]
  unfold byteSlice
  set A := d.take j with hA
  set Z := List.replicate (patLen - repl.length) 0 with hZ
  set C := d.drop (j + patLen) with hC
  rw [List.append_assoc (A ++ repl) Z C, List.append_assoc A repl (Z ++ C)]
  rw [← hAlen, List.drop_left, ← List.append_assoc]
  have hRZlen : (repl ++ Z).length = patLen := by
    rw [hZ]
    simp
    omega
  rw [← hRZlen, List.take_left]

/-- The neighbor conditions recorded by each applied path patch. -/
def pathPatchOk (pat repl : List Nat) : Prop :=
  repl.length ≤ pat.length ∧ 47 ∈ pat

theorem pathScanFrom_spec (pat repl : List Nat) (hpat : 47 ∈ pat) :
    ∀ (fuel j : Nat) (d : List Nat) (acc : List Patch),
      (∀ e ∈ acc, pathPatchOk e.2.1 e.2.2) →
      ∀ e ∈ (pathScanFrom pat repl fuel j d acc).2, pathPatchOk e.2.1 e.2.2 := by
  intro fuel
  induction fuel with
  | zero =>
      intro j d acc hacc e he
      exact hacc e he
  | succ n ih =>
      intro j d acc hacc e he
      rw [pathScanFrom] at he
      by_cases h1 : j < d.length - pat.length
      · rw [if_pos h1] at he
        by_cases h2 : byteSlice d j pat.length = pat
        · rw [if_pos h2] at he
          by_cases h3 : isSafePackagePathReplacement d j pat.length = true
          · rw [if_pos h3] at he
            by_cases h4 : repl.length ≤ pat.length
            · rw [if_pos h4] at he
              refine ih _ _ _ ?_ e he
              intro e' he'
              rcases List.mem_append.mp he' with he' | he'
              · exact hacc e' he'
              · simp only [List.mem_singleton] at he'
                subst he'
                exact ⟨h4, hpat⟩
            · rw [if_neg h4] at he
              exact ih _ _ _ hacc e he
          · rw [if_neg h3] at he
            exact ih _ _ _ hacc e he
        · rw [if_neg h2] at he
          exact ih _ _ _ hacc e he
      · rw [if_neg h1] at he
        exact hacc e he

theorem replaceProjectPackagePathsGlobal_spec :
    ∀ (entries : List (List Char × List Char)) (d : List Nat)
      (acc : List Patch),
      (∀ e ∈ acc, pathPatchOk e.2.1 e.2.2) →
      ∀ e ∈ (replaceProjectPackagePathsGlobal entries d acc).2,
        pathPatchOk e.2.1 e.2.2 := by
  intro entries
  induction entries with
  | nil =>
      intro d acc hacc e he
      exact hacc e he
  | cons entry rest ih =>
      intro d acc hacc e he
      cases entry with
      | mk original replacement =>
          rw [replaceProjectPackagePathsGlobal] at he
          by_cases h1 : trimDotSuffix original ∈ stdLibsPaths
          · rw [if_pos h1] at he
            exact ih _ _ hacc e he
          · rw [if_neg h1] at he
            by_cases h2 : '/' ∈ trimDotSuffix original
            · rw [if_pos h2] at he
              refine ih _ _ ?_ e he
              refine pathScanFrom_spec _ _ ?_ _ _ _ _ hacc
              unfold strBytes
              have : Char.toNat '/' = 47 := by decide
              rw [← this]
              exact List.mem_map_of_mem Char.toNat h2
            · rw [if_neg h2] at he
              exact ih _ _ hacc e he

/-- C7 amended: the whole-file path pass checks only the looser neighbor
rule — a preceding byte is rejected iff it is a letter or underscore (so
digits are permitted before a match), a following byte iff it is a letter,
digit or underscore; no per-occurrence system-path denylist is consulted.
Every applied patch has a replacement no longer than its pattern (its
pattern containing a slash), and a shorter replacement is written with the
remainder of the occurrence zero-padded. -/
theorem replaceProjectPackagePaths_characterization :
    (∀ (data : List Nat) (pos len : Nat),
      isSafePackagePathReplacement data pos len = true ↔
        ((0 < pos → ¬(isByteLetter (data.getD (pos - 1) 0) = true ∨
            data.getD (pos - 1) 0 = 95)) ∧
          (pos + len < data.length →
            ¬(isByteLetter (data.getD (pos + len) 0) = true ∨
              isByteDigit (data.getD (pos + len) 0) = true ∨
              data.getD (pos + len) 0 = 95)))) ∧
    (∀ (entries : List (List Char × List Char)) (d : List Nat),
      ∀ e ∈ (replaceProjectPackagePathsGlobal entries d []).2,
        (e.2.2).length ≤ (e.2.1).length ∧ 47 ∈ e.2.1) ∧
    (∀ (d : List Nat) (j : Nat) (repl : List Nat) (patLen : Nat),
      repl.length ≤ patLen → j + patLen ≤ d.length →
      byteSlice (pathWrite d j repl patLen) j patLen =
        repl ++ List.replicate (patLen - repl.length) 0) := by
  refine ⟨?_, ?_, ?_⟩
  · intro data pos len
    unfold isSafePackagePathReplacement
    by_cases h1 : 0 < pos ∧ (isByteLetter (data.getD (pos - 1) 0) ||
        data.getD (pos - 1) 0 == 95) = true
    · rw [if_pos h1]
      simp only [Bool.or_eq_true, beq_iff_eq] at h1
      constructor
      · intro hfalse
        exact absurd hfalse (by simp)
      · intro hcond
        exact absurd h1.2 (hcond.1 h1.1)
    · rw [if_neg h1]
      by_cases h2 : pos + len < data.length ∧
          (isByteLetter (data.getD (pos + len) 0) ||
            isByteDigit (data.getD (pos + len) 0) ||
            data.getD (pos + len) 0 == 95) = true
      · rw [if_pos h2]
        simp only [Bool.or_eq_true, beq_iff_eq] at h2
        constructor
        · intro hfalse
          exact absurd hfalse (by simp)
        · intro hcond
          refine absurd ?_ (hcond.2 h2.1)
          rcases h2.2 with (h | h) | h
          · exact Or.inl h
          · exact Or.inr (Or.inl h)
          · exact Or.inr (Or.inr h)
      · rw [if_neg h2]
        simp only [not_and_or, Bool.or_eq_true, beq_iff_eq, not_or] at h1 h2
        constructor
        · intro _
          constructor
          · intro hpos
            rcases h1 with h1 | h1
            · omega
            · intro hcon
              rcases hcon with h | h
              · exact h1.1 h
              · exact h1.2 h
          · intro hlt
            rcases h2 with h2 | h2
            · omega
            · intro hcon
              rcases hcon with h | h | h
              · exact h2.1.1 h
              · exact h2.1.2 h
              · exact h2.2 h
        · intro _
          rfl
  · intro entries d e he
    exact replaceProjectPackagePathsGlobal_spec entries d []
      (by intro e' he'; simp at he') e he
  · intro d j repl patLen h1 h2
    exact pathWrite_slice d j repl patLen h1 h2

/-- C7 counterexample: with the single replacement
`github.com/x -> q` and the buffer `"/usr/lib/" ++ 0x00 ++
"github.com/x" ++ 0x00`, the global path pass patches the occurrence at
offset 10 even though the source's own system-path denylist
(`isSafeToReplace`) rejects that position because the preceding context
contains `"/usr/lib/"`.  So the pass is not guarded by the denylist. -/
theorem replaceProjectPackagePaths_ignores_denylist :
    (replaceProjectPackagePathsGlobal
        [("github.com/x".toList, "q".toList)]
        (strBytes "/usr/lib/".toList ++ [0] ++
          strBytes "github.com/x".toList ++ [0]) []).2 =
      [(10, strBytes "github.com/x".toList, strBytes "q".toList)] ∧
    isSafeToReplace
      (strBytes "/usr/lib/".toList ++ [0] ++
        strBytes "github.com/x".toList ++ [0]) 10 12 = false := by
  constructor
  · decide
  · decide

/-! ## `detectBinaryFormat`, the per-format processors and
`postProcessBinary`

The container parsers (`debug/elf` etc.) are Go standard-library
externals; a parsed file is modelled by its section table, each section's
bytes being the slice of the file at its offset. -/

/-- A parsed section: name, file offset, size. -/
structure ElfSection where
  name : String
  offset : Nat
  size : Nat

/-- `section.Data()`: the section's bytes inside the file. -/
def sectionData (d : List Nat) (s : ElfSection) : List Nat :=
  byteSlice d s.offset s.size

/-- The candidate-section loop of `processELF`/`processPE`/`processMachO`:
first section with a matching name whose bytes contain the pclntab magic
wins; its file-relative offset is returned. -/
def sectionSearch (names : List String) :
    List ElfSection → List Nat → Option Nat
  | [], _ => none
  | s :: rest, d =>
      if s.name ∈ names then
        if 0 ≤ findPclntabMagic (sectionData d s) then
          some (s.offset + (findPclntabMagic (sectionData d s)).toNat)
        else sectionSearch names rest d
      else sectionSearch names rest d

/-- Model of `modifyPclntab`: bounds check, kill switch, then the
function-name obfuscation on a copy of the buffer. -/
def modifyPclntab (g : Nat → Nat) (cfg : LinkConfig) (d : List Nat)
    (off : Nat) : Except String (List Nat × Bool) :=
  if d.length < off + 4 then Except.error "invalid pclntab offset"
  else if cfg.DisablePclntab then Except.ok (d, false)
  else if cfg.RemoveFuncNames then
    Except.ok ((obfuscateFunctionNames g cfg d off).1, true)
  else Except.ok (d, false)

def elfSectionNames : List String := [".gopclntab", ".data.rel.ro"]

def peSectionNames : List String := [".rdata", ".data"]

def machoSectionNames : List String := ["__gopclntab", "__data"]

/-- The shared shape of `processELF`/`processPE`/`processMachO`: search
the candidate sections, fall back to a whole-file scan, and return the
input unchanged (no error) when the magic is nowhere. -/
def processFormat (names : List String) (sections : List ElfSection)
    (g : Nat → Nat) (cfg : LinkConfig) (d : List Nat) :
    Except String (List Nat × Bool) :=
  match sectionSearch names sections d with
  | some off => modifyPclntab g cfg d off
  | none =>
      if findPclntabMagic d < 0 then Except.ok (d, false)
      else modifyPclntab g cfg d (findPclntabMagic d).toNat

def processELF (sections : List ElfSection) (g : Nat → Nat) (cfg : LinkConfig)
    (d : List Nat) : Except String (List Nat × Bool) :=
  processFormat elfSectionNames sections g cfg d

def processPE (sections : List ElfSection) (g : Nat → Nat) (cfg : LinkConfig)
    (d : List Nat) : Except String (List Nat × Bool) :=
  processFormat peSectionNames sections g cfg d

def processMachO (sections : List ElfSection) (g : Nat → Nat)
    (cfg : LinkConfig) (d : List Nat) : Except String (List Nat × Bool) :=
  processFormat machoSectionNames sections g cfg d

def machoMagics : List Nat := [0xfeedface, 0xcefaedfe, 0xfeedfacf, 0xcffaedfe]

/-- Model of `detectBinaryFormat`. -/
def detectBinaryFormat (d : List Nat) : String :=
  if d.length < 4 then "Unknown"
  else if d.getD 0 0 = 127 ∧ d.getD 1 0 = 69 ∧ d.getD 2 0 = 76 ∧
      d.getD 3 0 = 70 then "ELF"
  else if d.getD 0 0 = 77 ∧ d.getD 1 0 = 90 then "PE"
  else if readLE32 d 0 ∈ machoMagics then "Mach-O"
  else "Unknown"

/-- The write phase of `postProcessBinary`: when the buffer was modified,
first write the ORIGINAL bytes to the new `.backup` file, then write the
patched buffer over the caller's path; otherwise write nothing. -/
def postWrite (outputBin : String) (d : List Nat) :
    Except String (List Nat × Bool) → Except String (List (String × List Nat))
  | Except.error e => Except.error e
  | Except.ok (newData, modified) =>
      if modified then
        Except.ok [(outputBin ++ ".backup", d), (outputBin, newData)]
      else Except.ok []

/-- Model of `postProcessBinary`: detect the format, process, then write.
The result lists the file writes performed, in order. -/
def postProcessBinary (g : Nat → Nat) (cfg : LinkConfig)
    (sections : List ElfSection) (outputBin : String) (d : List Nat) :
    Except String (List (String × List Nat)) :=
  if detectBinaryFormat d = "ELF" then
    postWrite outputBin d (processELF sections g cfg d)
  else if detectBinaryFormat d = "PE" then
    postWrite outputBin d (processPE sections g cfg d)
  else if detectBinaryFormat d = "Mach-O" then
    postWrite outputBin d (processMachO sections g cfg d)
  else Except.error "unsupported binary format"

/-! ### C5: magic nowhere in the binary means no-op, not error -/

theorem byteSlice_length (d : List Nat) (off n : Nat) :
    (byteSlice d off n).length = min n (d.length - off) := by
  unfold byteSlice
  simp

theorem byteSlice_getD (d : List Nat) (off n i : Nat)
    (h : i < (byteSlice d off n).length) :
    (byteSlice d off n).getD i 0 = d.getD (off + i) 0 := by
  have hlen : (byteSlice d off n).length = min n (d.length - off) :=
    byteSlice_length d off n
  have hi : i < n := by omega
  have hoi : off + i < d.length := by omega
  unfold byteSlice at h ⊢
  rw [List.getD_eq_getElem _ _ h]
  rw [List.getD_eq_getElem _ _ hoi]
  rw [List.getElem_take, List.getElem_drop]

theorem readLE32_slice (d : List Nat) (off n i : Nat)
    (h : i + 4 ≤ (byteSlice d off n).length) :
    readLE32 (byteSlice d off n) i = readLE32 d (off + i) := by
  unfold readLE32
  have e1 : (byteSlice d off n).getD i 0 = d.getD (off + i) 0 :=
    byteSlice_getD d off n i (by omega)
  have e2 : (byteSlice d off n).getD (i + 1) 0 = d.getD (off + i + 1) 0 := by
    have ha : off + (i + 1) = off + i + 1 := by omega
    rw [byteSlice_getD d off n (i + 1) (by omega), ha]
  have e3 : (byteSlice d off n).getD (i + 2) 0 = d.getD (off + i + 2) 0 := by
    have ha : off + (i + 2) = off + i + 2 := by omega
    rw [byteSlice_getD d off n (i + 2) (by omega), ha]
  have e4 : (byteSlice d off n).getD (i + 3) 0 = d.getD (off + i + 3) 0 := by
    have ha : off + (i + 3) = off + i + 3 := by omega
    rw [byteSlice_getD d off n (i + 3) (by omega), ha]
  rw [e1, e2, e3, e4]

theorem findPclntabMagic_slice_neg (d : List Nat) (off n : Nat)
    (h : findPclntabMagic d = -1) :
    findPclntabMagic (byteSlice d off n) = -1 := by
  rcases findPclntabMagic_spec (byteSlice d off n) with ⟨h1, _⟩ |
    ⟨k, h1, h2, h3, _⟩
  · exact h1
  · exfalso
    have hlen : (byteSlice d off n).length = min n (d.length - off) :=
      byteSlice_length d off n
    have hread : readLE32 (byteSlice d off n) k = readLE32 d (off + k) :=
      readLE32_slice d off n k h2
    have hbound : off + k + 4 ≤ d.length := by omega
    exact findPclntabMagic_neg_one d h (off + k) hbound (hread ▸ h3)

theorem sectionSearch_none (names : List String) (d : List Nat)
    (h : findPclntabMagic d = -1) :
    ∀ sections : List ElfSection, sectionSearch names sections d = none := by
  intro sections
  induction sections with
  | nil => rfl
  | cons s rest ih =>
      rw [sectionSearch]
      by_cases hn : s.name ∈ names
      · rw [if_pos hn]
        have hslice : findPclntabMagic (sectionData d s) = -1 :=
          findPclntabMagic_slice_neg d s.offset s.size h
        rw [if_neg (by rw [hslice]; decide)]
        exact ih
      · rw [if_neg hn]
        exact ih

/-- C5: when the pclntab magic occurs nowhere in the binary, the
per-format processor returns the original data unchanged with no error,
and `postProcessBinary` succeeds performing no file write at all. -/
theorem postProcessBinary_noop_when_no_magic (g : Nat → Nat)
    (cfg : LinkConfig) (sections : List ElfSection) (out : String)
    (d : List Nat) (hmag : findPclntabMagic d = -1)
    (hfmt : detectBinaryFormat d = "ELF") :
    processELF sections g cfg d = Except.ok (d, false) ∧
      postProcessBinary g cfg sections out d = Except.ok [] := by
  have hproc : processELF sections g cfg d = Except.ok (d, false) := by
    unfold processELF processFormat
    rw [sectionSearch_none elfSectionNames d hmag sections]
    rw [if_pos (by rw [hmag]; decide)]
  refine ⟨hproc, ?_⟩
  unfold postProcessBinary
  rw [if_pos hfmt, hproc]
  rfl

/-- Witness: an 8-byte ELF-magic file with no pclntab magic is left
untouched. -/
theorem postProcessBinary_noop_when_no_magic_witness :
    (findPclntabMagic [127, 69, 76, 70, 0, 0, 0, 0] = -1 ∧
      detectBinaryFormat [127, 69, 76, 70, 0, 0, 0, 0] = "ELF") ∧
      (processELF [⟨".gopclntab", 0, 8⟩] (fun _ => 0) ⟨true, false, false, []⟩
          [127, 69, 76, 70, 0, 0, 0, 0] =
        Except.ok ([127, 69, 76, 70, 0, 0, 0, 0], false) ∧
        postProcessBinary (fun _ => 0) ⟨true, false, false, []⟩
          [⟨".gopclntab", 0, 8⟩] "out" [127, 69, 76, 70, 0, 0, 0, 0] =
          Except.ok []) :=
  ⟨⟨by decide, by decide⟩,
    postProcessBinary_noop_when_no_magic (fun _ => 0) ⟨true, false, false, []⟩
      [⟨".gopclntab", 0, 8⟩] "out" [127, 69, 76, 70, 0, 0, 0, 0]
      (by decide) (by decide)⟩

/-! ### C2: the write phase backs up the original and overwrites the
caller's path with the patched buffer -/

theorem postWrite_cases (out : String) (d : List Nat)
    (r : Except String (List Nat × Bool)) :
    (∃ e, postWrite out d r = Except.error e) ∨
      postWrite out d r = Except.ok [] ∨
      ∃ nd, postWrite out d r = Except.ok [(out ++ ".backup", d), (out, nd)] := by
  cases r with
  | error e => exact Or.inl ⟨e, rfl⟩
  | ok p =>
      cases p with
      | mk nd modified =>
          cases modified with
          | false => exact Or.inr (Or.inl rfl)
          | true => exact Or.inr (Or.inr ⟨nd, rfl⟩)

/-- C2 amended: whenever `postProcessBinary` writes at all, it writes the
ORIGINAL bytes to the new `<path>.backup` file and the PATCHED buffer to
the caller's path `<path>` — the caller's file does not keep its
pre-patch bytes; the backup does. -/
theorem postProcessBinary_backup_then_patch (g : Nat → Nat)
    (cfg : LinkConfig) (sections : List ElfSection) (out : String)
    (d : List Nat) :
    (∃ e, postProcessBinary g cfg sections out d = Except.error e) ∨
      postProcessBinary g cfg sections out d = Except.ok [] ∨
      ∃ nd, postProcessBinary g cfg sections out d =
        Except.ok [(out ++ ".backup", d), (out, nd)] := by
  unfold postProcessBinary
  by_cases h1 : detectBinaryFormat d = "ELF"
  · rw [if_pos h1]
    exact postWrite_cases out d _
  · rw [if_neg h1]
    by_cases h2 : detectBinaryFormat d = "PE"
    · rw [if_pos h2]
      exact postWrite_cases out d _
    · rw [if_neg h2]
      by_cases h3 : detectBinaryFormat d = "Mach-O"
      · rw [if_pos h3]
        exact postWrite_cases out d _
      · rw [if_neg h3]
        exact Or.inl ⟨"unsupported binary format", rfl⟩

/-- A small ELF-magic buffer holding the pclntab magic and one patchable
`"main."` occurrence. -/
def sampleElf : List Nat :=
  [127, 69, 76, 70, 251, 255, 255, 255, 0] ++ strBytes "main.".toList ++ [0]

/-- `sampleElf` after the binary phase: `"main."` replaced by `"core."`. -/
def sampleElfPatched : List Nat :=
  [127, 69, 76, 70, 251, 255, 255, 255, 0] ++ strBytes "core.".toList ++ [0]

/-- C2 counterexample: on `sampleElf` the binary phase writes the PATCHED
buffer to the caller's path `"out"` (whose content therefore changes) and
the pre-patch original only to the NEW file `"out.backup"` — contradicting
the claim that the file at the caller's path keeps its original bytes. -/
theorem postProcessBinary_overwrites_caller_path :
    postProcessBinary (fun _ => 0) ⟨true, false, true, []⟩ [] "out" sampleElf =
      Except.ok [("out" ++ ".backup", sampleElf), ("out", sampleElfPatched)] ∧
      sampleElfPatched ≠ sampleElf := by
  constructor
  · rfl
  · decide

/-- Witness: on the sample buffer the pass applies exactly one patch, at
offset 9, replacing the 5-byte `"main."` with the 5-byte `"core."`. -/
theorem obfuscateFunctionNames_equal_length_patches_witness :
    (9, strBytes "main.".toList, strBytes "core.".toList) ∈
      (obfuscateFunctionNames (fun _ => 0) ⟨true, false, true, []⟩
        sampleElf 4).2.1 ∧
      ((9, strBytes "main.".toList, strBytes "core.".toList).2.2).length =
        ((9, strBytes "main.".toList, strBytes "core.".toList).2.1).length :=
  ⟨by decide,
    obfuscateFunctionNames_equal_length_patches (fun _ => 0)
      ⟨true, false, true, []⟩ sampleElf 4
      (9, strBytes "main.".toList, strBytes "core.".toList) (by decide)⟩

/-! ## `obfuscateName` (source-level renaming) and its no-collision
property -/

/-- The alphanumeric charset of `generateRandomString` (no underscore). -/
def charsetAlnum : List Char :=
  "abcdefghijklmnopqrstuvwxyzABCDEFGHIJKLMNOPQRSTUVWXYZ0123456789".toList

/-- Model of `generateRandomString`: `n` draws from the 62-char set. -/
def generateRandomString (g : Nat → Nat) : Nat → List Char × (Nat → Nat)
  | 0 => ([], g)
  | n + 1 =>
      ((charsetAlnum.getD (secureRandInt g 62) 'a') ::
          (generateRandomString (onext g) n).1,
        (generateRandomString (onext g) n).2)

/-- The slice of the `Obfuscator` state that `obfuscateName` touches:
the two name mappings, the import-alias values, and the counter. -/
structure NameState where
  varMapping : List (List Char × List Char)
  funcMapping : List (List Char × List Char)
  importAliasValues : List (List Char)
  namingCounter : Nat

def valuesOf (m : List (List Char × List Char)) : List (List Char) :=
  m.map Prod.snd

def lookupName (m : List (List Char × List Char)) (k : List Char) :
    Option (List Char) :=
  (m.find? (fun p => p.1 == k)).map Prod.snd

/-- Model of `isNameUsed`: scan the values of all three mappings. -/
def isNameUsed (s : NameState) (n : List Char) : Bool :=
  s.varMapping.any (fun p => p.2 == n) ||
    s.funcMapping.any (fun p => p.2 == n) ||
    s.importAliasValues.any (fun v => v == n)

/-- Every name a later call must avoid: the values of both name mappings
and the import-alias values. -/
def issuedValues (s : NameState) : List (List Char) :=
  valuesOf s.varMapping ++ valuesOf s.funcMapping ++ s.importAliasValues

/-- Go decimal digits (`fmt.Sprintf("%d", ·)`). -/
def digitsList : List Char := "0123456789".toList

def digitChar (d : Nat) : Char := digitsList.getD d '0'

def natDigits (n : Nat) : List Char :=
  if n < 10 then [digitChar n] else natDigits (n / 10) ++ [digitChar (n % 10)]
termination_by n
decreasing_by exact Nat.div_lt_self (by omega) (by omega)

def digitVal (c : Char) : Nat := c.toNat - 48

def parseDigits (l : List Char) : Nat :=
  l.foldl (fun a c => a * 10 + digitVal c) 0

/-- The candidate name of the retry loop: category marker plus the 12-char
random part. -/
def obfCandidate (isFunc isExp : Bool) (randomPart : List Char) : List Char :=
  if isExp then
    if isFunc then ['F', 'n'] ++ randomPart else ['V'] ++ randomPart
  else if isFunc then ['f', 'n'] ++ randomPart else ['l'] ++ randomPart

/-- The counter-fallback name: marker, decimal counter, underscore, and an
8-char random part. -/
def obfFallback (isFunc isExp : Bool) (counter : Nat) (randomPart : List Char) :
    List Char :=
  (if isExp then if isFunc then ['F', 'n'] else ['V']
    else if isFunc then ['f', 'n'] else ['l']) ++
    natDigits counter ++ '_' :: randomPart

/-- The bounded retry loop (`maxAttempts = 100`): each attempt draws a
fresh 12-char random part; a used candidate is retried. -/
def obfAttempts (s : NameState) (isFunc isExp : Bool) :
    Nat → (Nat → Nat) → Option (List Char) × (Nat → Nat)
  | 0, g => (none, g)
  | fuel + 1, g =>
      if isNameUsed s (obfCandidate isFunc isExp (generateRandomString g 12).1)
      then obfAttempts s isFunc isExp fuel (generateRandomString g 12).2
      else (some (obfCandidate isFunc isExp (generateRandomString g 12).1),
        (generateRandomString g 12).2)

def insertMapping (s : NameState) (isFunc : Bool) (name v : List Char) :
    NameState :=
  match isFunc with
  | true => { s with funcMapping := (name, v) :: s.funcMapping }
  | false => { s with varMapping := (name, v) :: s.varMapping }

/-- Model of `obfuscateName`: return an existing mapping, else retry up to
100 random candidates, else fall back to the incremented counter (the
fallback performs no reuse check). -/
def obfuscateName (g : Nat → Nat) (s : NameState) (name : List Char)
    (isFunc : Bool) : List Char × NameState × (Nat → Nat) :=
  match (if isFunc then lookupName s.funcMapping name
    else lookupName s.varMapping name) with
  | some v => (v, s, g)
  | none =>
      match obfAttempts s isFunc (isExported name) 100 g with
      | (some v, g1) => (v, insertMapping s isFunc name v, g1)
      | (none, g1) =>
          (obfFallback isFunc (isExported name) (s.namingCounter + 1)
              (generateRandomString g1 8).1,
            insertMapping { s with namingCounter := s.namingCounter + 1 }
              isFunc name
              (obfFallback isFunc (isExported name) (s.namingCounter + 1)
                (generateRandomString g1 8).1),
            (generateRandomString g1 8).2)

/-- A sequence of `obfuscateName` calls, threading state and oracle;
returns the names issued, in order. -/
def runCalls (g : Nat → Nat) (s : NameState) :
    List (List Char × Bool) → List (List Char)
  | [] => []
  | (name, isFunc) :: rest =>
      (obfuscateName g s name isFunc).1 ::
        runCalls (obfuscateName g s name isFunc).2.2
          (obfuscateName g s name isFunc).2.1 rest

/-! ### Wellformedness invariant for issued values -/

def prefixMarkers : List (List Char) := [['l'], ['f', 'n'], ['V'], ['F', 'n']]

/-- A counter-fallback-shaped value for counter `c`. -/
def FallbackOf (c : Nat) (v : List Char) : Prop :=
  ∃ pre r, pre ∈ prefixMarkers ∧ r.length = 8 ∧
    v = pre ++ natDigits c ++ '_' :: r

/-- A value the generator may have issued by the time the counter is
`cnt`: either underscore-free (random path, alias) or a fallback of some
counter value at most `cnt`. -/
def GoodVal (cnt : Nat) (v : List Char) : Prop :=
  '_' ∉ v ∨ ∃ c, c ≤ cnt ∧ FallbackOf c v

def Inv (s : NameState) : Prop :=
  ∀ v ∈ issuedValues s, GoodVal s.namingCounter v

theorem getD_elem_ne (l : List Char) (d x : Char) (hl : ∀ c ∈ l, c ≠ x)
    (hd : d ≠ x) (k : Nat) : l.getD k d ≠ x := by
  by_cases h : k < l.length
  · rw [List.getD_eq_getElem _ _ h]
    exact hl _ (List.getElem_mem _)
  · rw [List.getD_eq_default _ _ (by omega)]
    exact hd

theorem digitVal_digitChar : ∀ d, d < 10 → digitVal (digitChar d) = d := by
  decide

theorem parseDigits_concat (l : List Char) (c : Char) :
    parseDigits (l ++ [c]) = parseDigits l * 10 + digitVal c := by
  unfold parseDigits
  rw [List.foldl_append]
  rfl

theorem parse_natDigits : ∀ n, parseDigits (natDigits n) = n := by
  intro n
  induction n using Nat.strong_induction_on with
  | _ n ih =>
      rw [natDigits]
      by_cases h : n < 10
      · rw [if_pos h]
        have : parseDigits [digitChar n] = digitVal (digitChar n) := by
          unfold parseDigits
          simp [List.foldl]
        rw [this, digitVal_digitChar n h]
      · rw [if_neg h]
        rw [parseDigits_concat]
        rw [ih (n / 10) (Nat.div_lt_self (by omega) (by omega))]
        rw [digitVal_digitChar (n % 10) (by omega)]
        omega

theorem natDigits_inj {a b : Nat} (h : natDigits a = natDigits b) : a = b := by
  have ha := parse_natDigits a
  rw [h, parse_natDigits b] at ha
  omega

theorem digitsList_no_us : ∀ c ∈ digitsList, c ≠ '_' := by decide

theorem natDigits_no_us : ∀ n, '_' ∉ natDigits n := by
  intro n
  induction n using Nat.strong_induction_on with
  | _ n ih =>
      rw [natDigits]
      by_cases h : n < 10
      · rw [if_pos h]
        intro hmem
        simp only [List.mem_singleton] at hmem
        exact getD_elem_ne _ _ _ digitsList_no_us (by decide) n hmem.symm
      · rw [if_neg h]
        intro hmem
        rcases List.mem_append.mp hmem with hmem | hmem
        · exact ih (n / 10) (Nat.div_lt_self (by omega) (by omega)) hmem
        · simp only [List.mem_singleton] at hmem
          exact getD_elem_ne _ _ _ digitsList_no_us (by decide) (n % 10) hmem.symm

theorem charsetAlnum_no_us : ∀ c ∈ charsetAlnum, c ≠ '_' := by decide

theorem generateRandomString_no_us :
    ∀ (n : Nat) (g : Nat → Nat), '_' ∉ (generateRandomString g n).1
  | 0, g => by simp [generateRandomString]
  | n + 1, g => by
      intro hmem
      simp only [generateRandomString, List.mem_cons] at hmem
      rcases hmem with hmem | hmem
      · exact getD_elem_ne _ _ _ charsetAlnum_no_us (by decide) _ hmem.symm
      · exact generateRandomString_no_us n (onext g) hmem

theorem generateRandomString_length :
    ∀ (n : Nat) (g : Nat → Nat), ((generateRandomString g n).1).length = n
  | 0, g => rfl
  | n + 1, g => by
      simp only [generateRandomString, List.length_cons]
      rw [generateRandomString_length n (onext g)]

theorem obfCandidate_no_us (isFunc isExp : Bool) (r : List Char)
    (hr : '_' ∉ r) : '_' ∉ obfCandidate isFunc isExp r := by
  unfold obfCandidate
  cases isExp with
  | true =>
      cases isFunc with
      | true => simp [hr]
      | false => simp [hr]
  | false =>
      cases isFunc with
      | true => simp [hr]
      | false => simp [hr]

theorem obfFallback_FallbackOf (isFunc isExp : Bool) (c : Nat)
    (r : List Char) (hr : r.length = 8) :
    FallbackOf c (obfFallback isFunc isExp c r) := by
  refine ⟨if isExp then if isFunc then ['F', 'n'] else ['V']
    else if isFunc then ['f', 'n'] else ['l'], r, ?_, hr, rfl⟩
  cases isExp <;> cases isFunc <;> decide

theorem obfFallback_has_us (isFunc isExp : Bool) (c : Nat) (r : List Char) :
    '_' ∈ obfFallback isFunc isExp c r := by
  unfold obfFallback
  rw [List.append_assoc]
  refine List.mem_append.mpr (Or.inr ?_)
  exact List.mem_append.mpr (Or.inr (by simp))

theorem headD_append_of_ne_nil (pre X : List Char) (h : pre ≠ []) :
    (pre ++ X).headD ' ' = pre.headD ' ' := by
  cases pre with
  | nil => exact absurd rfl h
  | cons c t => rfl

theorem prefixMarkers_head_inj :
    ∀ p ∈ prefixMarkers, ∀ q ∈ prefixMarkers,
      p.headD ' ' = q.headD ' ' → p = q := by decide

theorem prefixMarkers_ne_nil : ∀ p ∈ prefixMarkers, p ≠ [] := by decide

theorem FallbackOf_ne {c c' : Nat} {v v' : List Char} (h : FallbackOf c v)
    (h' : FallbackOf c' v') (hne : c ≠ c') : v ≠ v' := by
  obtain ⟨pre, r, hpre, hr, hv⟩ := h
  obtain ⟨pre', r', hpre', hr', hv'⟩ := h'
  intro heq
  rw [hv, hv'] at heq
  have hpp : pre = pre' := by
    have h1 : ((pre ++ natDigits c ++ '_' :: r).headD ' ') = pre.headD ' ' := by
      rw [List.append_assoc]
      exact headD_append_of_ne_nil pre _ (prefixMarkers_ne_nil pre hpre)
    have h2 : ((pre' ++ natDigits c' ++ '_' :: r').headD ' ') = pre'.headD ' ' := by
      rw [List.append_assoc]
      exact headD_append_of_ne_nil pre' _ (prefixMarkers_ne_nil pre' hpre')
    refine prefixMarkers_head_inj pre hpre pre' hpre' ?_
    rw [← h1, ← h2, heq]
  subst hpp
  rw [List.append_assoc, List.append_assoc] at heq
  have heq2 : natDigits c ++ '_' :: r = natDigits c' ++ '_' :: r' :=
    List.append_cancel_left heq
  have hlen : (natDigits c).length = (natDigits c').length := by
    have hl := congrArg List.length heq2
    simp only [List.length_append, List.length_cons] at hl
    omega
  obtain ⟨hds, _⟩ := List.append_inj heq2 hlen
  exact hne (natDigits_inj hds)

theorem obfAttempts_some (s : NameState) (isFunc isExp : Bool) :
    ∀ (fuel : Nat) (g : Nat → Nat) (v : List Char) (g1 : Nat → Nat),
      obfAttempts s isFunc isExp fuel g = (some v, g1) →
      isNameUsed s v = false ∧ '_' ∉ v := by
  intro fuel
  induction fuel with
  | zero =>
      intro g v g1 h
      simp [obfAttempts] at h
  | succ n ih =>
      intro g v g1 h
      rw [obfAttempts] at h
      by_cases hused : isNameUsed s
          (obfCandidate isFunc isExp (generateRandomString g 12).1) = true
      · rw [if_pos hused] at h
        exact ih _ v g1 h
      · rw [if_neg hused] at h
        simp only [Prod.mk.injEq, Option.some.injEq] at h
        rw [← h.1]
        refine ⟨Bool.eq_false_iff.mpr hused, ?_⟩
        exact obfCandidate_no_us isFunc isExp _ (generateRandomString_no_us 12 g)

theorem isNameUsed_false_iff (s : NameState) (v : List Char) :
    isNameUsed s v = false ↔ v ∉ issuedValues s := by
  unfold isNameUsed issuedValues valuesOf
  constructor
  · intro h hmem
    simp only [Bool.or_eq_false_iff, List.any_eq_false, beq_iff_eq] at h
    rcases List.mem_append.mp hmem with hmem | hmem
    · rcases List.mem_append.mp hmem with hmem | hmem
      · obtain ⟨p, hp, hpv⟩ := List.mem_map.mp hmem
        exact h.1.1 p hp hpv
      · obtain ⟨p, hp, hpv⟩ := List.mem_map.mp hmem
        exact h.1.2 p hp hpv
    · exact h.2 v hmem rfl
  · intro h
    simp only [Bool.or_eq_false_iff, List.any_eq_false, beq_iff_eq]
    refine ⟨⟨?_, ?_⟩, ?_⟩
    · intro p hp hpv
      exact h (List.mem_append.mpr (Or.inl (List.mem_append.mpr
        (Or.inl (List.mem_map.mpr ⟨p, hp, hpv⟩)))))
    · intro p hp hpv
      exact h (List.mem_append.mpr (Or.inl (List.mem_append.mpr
        (Or.inr (List.mem_map.mpr ⟨p, hp, hpv⟩)))))
    · intro w hw hwv
      subst hwv
      exact h (List.mem_append.mpr (Or.inr hw))

theorem issuedValues_insert (s : NameState) (isFunc : Bool)
    (name v : List Char) (w : List Char) :
    w ∈ issuedValues (insertMapping s isFunc name v) ↔
      w = v ∨ w ∈ issuedValues s := by
  cases isFunc with
  | true =>
      show w ∈ issuedValues
          { s with funcMapping := (name, v) :: s.funcMapping } ↔
        w = v ∨ w ∈ issuedValues s
      simp only [issuedValues, valuesOf, List.map_cons, List.mem_append,
        List.mem_cons]
      tauto
  | false =>
      show w ∈ issuedValues
          { s with varMapping := (name, v) :: s.varMapping } ↔
        w = v ∨ w ∈ issuedValues s
      simp only [issuedValues, valuesOf, List.map_cons, List.mem_append,
        List.mem_cons]
      tauto

theorem insertMapping_counter (s : NameState) (isFunc : Bool)
    (name v : List Char) :
    (insertMapping s isFunc name v).namingCounter = s.namingCounter := by
  cases isFunc with
  | true => rfl
  | false => rfl

/-- Freshness of a key in both name mappings. -/
def KeysFresh (s : NameState) (n : List Char) : Prop :=
  lookupName s.varMapping n = none ∧ lookupName s.funcMapping n = none

theorem lookupName_cons_ne (m : List (List Char × List Char))
    (name v k : List Char) (h : k ≠ name) :
    lookupName ((name, v) :: m) k = lookupName m k := by
  unfold lookupName
  rw [List.find?_cons_of_neg]
  simp
  exact fun hc => h hc.symm

theorem KeysFresh_insert (s : NameState) (isFunc : Bool)
    (name v k : List Char) (hk : k ≠ name) (h : KeysFresh s k) :
    KeysFresh (insertMapping s isFunc name v) k := by
  cases isFunc with
  | true =>
      refine ⟨h.1, ?_⟩
      show lookupName ((name, v) :: s.funcMapping) k = none
      rw [lookupName_cons_ne _ _ _ _ hk]
      exact h.2
  | false =>
      refine ⟨?_, h.2⟩
      show lookupName ((name, v) :: s.varMapping) k = none
      rw [lookupName_cons_ne _ _ _ _ hk]
      exact h.1

theorem GoodVal_mono {cnt cnt' : Nat} (h : cnt ≤ cnt') (v : List Char)
    (hv : GoodVal cnt v) : GoodVal cnt' v := by
  rcases hv with hv | ⟨c, hc, hf⟩
  · exact Or.inl hv
  · exact Or.inr ⟨c, by omega, hf⟩

theorem issuedValues_bump (s : NameState) (c : Nat) :
    issuedValues { s with namingCounter := c } = issuedValues s := rfl

theorem obfuscateName_step (g : Nat → Nat) (s : NameState) (name : List Char)
    (isFunc : Bool) (hInv : Inv s) (hfresh : KeysFresh s name) :
    (obfuscateName g s name isFunc).1 ∉ issuedValues s ∧
      Inv (obfuscateName g s name isFunc).2.1 ∧
      (∀ w, w ∈ issuedValues (obfuscateName g s name isFunc).2.1 ↔
        w = (obfuscateName g s name isFunc).1 ∨ w ∈ issuedValues s) ∧
      (∀ k, k ≠ name → KeysFresh s k →
        KeysFresh (obfuscateName g s name isFunc).2.1 k) := by
  have hlook : (if isFunc then lookupName s.funcMapping name
      else lookupName s.varMapping name) = none := by
    cases isFunc with
    | true => exact hfresh.2
    | false => exact hfresh.1
  unfold obfuscateName
  rw [hlook]
  rcases hatt : obfAttempts s isFunc (isExported name) 100 g with ⟨o, g1⟩
  cases o with
  | some v =>
      obtain ⟨hused, hus⟩ := obfAttempts_some s isFunc (isExported name)
        100 g v g1 hatt
      have hnot : v ∉ issuedValues s := (isNameUsed_false_iff s v).mp hused
      refine ⟨hnot, ?_, ?_, ?_⟩
      · intro w hw
        rw [issuedValues_insert] at hw
        rw [insertMapping_counter]
        rcases hw with hw | hw
        · subst hw
          exact Or.inl hus
        · exact hInv w hw
      · intro w
        exact issuedValues_insert s isFunc name v w
      · intro k hk hkf
        exact KeysFresh_insert s isFunc name v k hk hkf
  | none =>
      have hfall : FallbackOf (s.namingCounter + 1)
          (obfFallback isFunc (isExported name) (s.namingCounter + 1)
            (generateRandomString g1 8).1) :=
        obfFallback_FallbackOf isFunc (isExported name) (s.namingCounter + 1)
          (generateRandomString g1 8).1 (generateRandomString_length 8 g1)
      have hnot : obfFallback isFunc (isExported name) (s.namingCounter + 1)
          (generateRandomString g1 8).1 ∉ issuedValues s := by
        intro hmem
        rcases hInv _ hmem with hus | ⟨c, hc, hf⟩
        · exact hus (obfFallback_has_us isFunc (isExported name)
            (s.namingCounter + 1) (generateRandomString g1 8).1)
        · exact FallbackOf_ne hfall hf (by omega) rfl
      refine ⟨hnot, ?_, ?_, ?_⟩
      · intro w hw
        rw [issuedValues_insert, issuedValues_bump] at hw
        rw [insertMapping_counter]
        rcases hw with hw | hw
        · subst hw
          exact Or.inr ⟨s.namingCounter + 1, le_refl _, hfall⟩
        · exact GoodVal_mono (Nat.le_succ _) w (hInv w hw)
      · intro w
        rw [issuedValues_insert, issuedValues_bump]
      · intro k hk hkf
        refine KeysFresh_insert _ isFunc name _ k hk ?_
        exact hkf

theorem runCalls_spec :
    ∀ (calls : List (List Char × Bool)) (g : Nat → Nat) (s : NameState),
      Inv s →
      (∀ p ∈ calls, KeysFresh s p.1) →
      (calls.map Prod.fst).Pairwise (fun a b => a ≠ b) →
      (runCalls g s calls).Pairwise (fun a b => a ≠ b) ∧
        ∀ v ∈ runCalls g s calls, v ∉ issuedValues s := by
  intro calls
  induction calls with
  | nil =>
      intro g s _ _ _
      exact ⟨List.Pairwise.nil, by intro v hv; simp [runCalls] at hv⟩
  | cons call rest ih =>
      intro g s hInv hfresh hdist
      cases call with
      | mk name isFunc =>
          obtain ⟨hnot, hInv', hiss, hkeys⟩ :=
            obfuscateName_step g s name isFunc hInv
              (hfresh (name, isFunc) (by simp))
          simp only [List.map_cons, List.pairwise_cons] at hdist
          have hrest := ih (obfuscateName g s name isFunc).2.2
            (obfuscateName g s name isFunc).2.1 hInv'
            (by
              intro p hp
              refine hkeys p.1 ?_ (hfresh p (by simp [hp]))
              exact fun hcon => hdist.1 p.1 (List.mem_map.mpr ⟨p, hp, rfl⟩) hcon.symm)
            hdist.2
          rw [runCalls]
          constructor
          · refine List.pairwise_cons.mpr ⟨?_, hrest.1⟩
            intro v hv hveq
            have := hrest.2 v hv
            rw [hiss v] at this
            exact this (Or.inl hveq.symm)
          · intro v hv
            rcases List.mem_cons.mp hv with hv | hv
            · subst hv
              exact hnot
            · intro hcon
              exact hrest.2 v hv ((hiss v).mpr (Or.inr hcon))

/-- C8: starting from empty name mappings, any pre-existing underscore-free
import-alias values and any counter, a sequence of `obfuscateName` calls
with pairwise-distinct input names returns pairwise-distinct obfuscated
names, none of which equals a previously issued import-alias value; each
call is a total function (bounded retry, then the counter fallback). -/
theorem obfuscateName_no_collision (g : Nat → Nat)
    (aliases : List (List Char)) (counter0 : Nat)
    (calls : List (List Char × Bool))
    (hdist : (calls.map Prod.fst).Pairwise (fun a b => a ≠ b))
    (halias : ∀ v ∈ aliases, '_' ∉ v) :
    (runCalls g ⟨[], [], aliases, counter0⟩ calls).Pairwise
        (fun a b => a ≠ b) ∧
      ∀ v ∈ runCalls g ⟨[], [], aliases, counter0⟩ calls, v ∉ aliases := by
  have h := runCalls_spec calls g ⟨[], [], aliases, counter0⟩
    (by
      intro v hv
      simp only [issuedValues, valuesOf, List.map_nil, List.nil_append] at hv
      exact Or.inl (halias v hv))
    (by
      intro p hp
      exact ⟨rfl, rfl⟩)
    hdist
  refine ⟨h.1, ?_⟩
  intro v hv hmem
  refine h.2 v hv ?_
  simp only [issuedValues, valuesOf, List.map_nil, List.nil_append]
  exact hmem

/-- Witness: two calls (`x` as a variable, `Y` as a function) against the
alias value `pXYZ` produce distinct names avoiding the alias. -/
theorem obfuscateName_no_collision_witness :
    ((([("x".toList, false), ("Y".toList, true)] :
        List (List Char × Bool)).map Prod.fst).Pairwise (fun a b => a ≠ b) ∧
      (∀ v ∈ [(['p', 'X', 'Y', 'Z'] : List Char)], '_' ∉ v)) ∧
      ((runCalls (fun _ => 0) ⟨[], [], [['p', 'X', 'Y', 'Z']], 0⟩
          [("x".toList, false), ("Y".toList, true)]).Pairwise
          (fun a b => a ≠ b) ∧
        ∀ v ∈ runCalls (fun _ => 0) ⟨[], [], [['p', 'X', 'Y', 'Z']], 0⟩
            [("x".toList, false), ("Y".toList, true)],
          v ∉ [(['p', 'X', 'Y', 'Z'] : List Char)]) :=
  ⟨⟨by decide, by decide⟩,
    obfuscateName_no_collision (fun _ => 0) [['p', 'X', 'Y', 'Z']] 0
      [("x".toList, false), ("Y".toList, true)] (by decide) (by decide)⟩

end Obf
